import Mathlib

/-!
Verification of the Normalize engine and configuration-injection layer of
the `dlt` repository, against its natural-language specification.

The repository sources available are `dlt/common/configuration/inject.py`
and `tests/normalize/test_normalize.py`.  The Normalize engine itself
(work distributor, schema registry, item flattener) is exercised by the
tests but its implementation files are not present, so those components
are modelled from the specification (see the doc comments starting with
`Modelled from the spec:`); `inject.py` is embedded from its source.
-/

namespace DltSpec

/-! ## Work Distributor (spec §4.3, `Normalize.group_worker_files`) -/

/-- A pending input file identifier, as a character sequence. -/
abbrev FileId := List Char

/-- Lexicographic comparison of identifiers, by character code point. -/
def lexLe : List Char → List Char → Bool
  | [], _ => true
  | _ :: _, [] => false
  | a :: as, b :: bs => a.toNat.blt b.toNat || (a.toNat.beq b.toNat && lexLe as bs)

/-- The lexicographic order on file identifiers relied upon by the
Work Distributor (spec §6: "sortability of identifiers"). -/
def fileLe (a b : FileId) : Prop := lexLe a b = true

instance : DecidableRel fileLe := fun _ _ => inferInstanceAs (Decidable (_ = true))

/-- Sorting of the pending files, lexicographic on the identifier. -/
def sortFiles (files : List FileId) : List FileId := List.insertionSort fileLe files

/-- The balanced partition of spec §4.3 steps 3-5, for a file list `s` and
an effective group count `w`: with `base = n / w` and `rem = n % w`,
group `i` is the contiguous slice `s[i*base:(i+1)*base]`, and the
trailing file at offset `j = i - (w - rem)` is appended to group
`w - rem + j`. -/
def distGroups (s : List FileId) (w : Nat) : List (List FileId) :=
  let n := s.length
  let base := n / w
  let rem := n % w
  (List.range w).map fun i =>
    (s.drop (i * base)).take base ++
      (if w - rem ≤ i then (s.drop (w * base + (i - (w - rem)))).take 1 else [])

/-- Modelled from the spec: the Work Distributor `group_worker_files`
(the implementing module `dlt/normalize` is missing from the sources;
only its test `test_group_worker_files` is present).  Follows the exact
algorithm of spec §4.3: empty result on no files, otherwise
`w = min(worker_count, n)` balanced groups via `distGroups`.  The input
is first sorted lexicographically: the test at
`test_normalize.py:327-329` ("check if sorted") shows the function sorts
its input itself, which the spec's stated sortedness precondition leaves
out. -/
def group_worker_files (files : List FileId) (worker_count : Nat) : List (List FileId) :=
  let sorted := sortFiles files
  if sorted.length = 0 then []
  else distGroups sorted (min worker_count sorted.length)

end DltSpec

namespace DltSpec

theorem charEq_of_toNat_eq {a b : Char} (h : a.toNat = b.toNat) : a = b :=
  Char.eq_of_val_eq (UInt32.ext h)

theorem lexLe_cons_iff (a b : Char) (as bs : List Char) :
    lexLe (a :: as) (b :: bs) = true ↔
      a.toNat < b.toNat ∨ (a.toNat = b.toNat ∧ lexLe as bs = true) := by
  simp [lexLe, Bool.or_eq_true, Bool.and_eq_true, Nat.blt_eq, Nat.beq_eq]

theorem lexLe_total : ∀ a b : List Char, lexLe a b = true ∨ lexLe b a = true
  | [], _ => Or.inl rfl
  | _ :: _, [] => Or.inr rfl
  | a :: as, b :: bs => by
    rcases Nat.lt_trichotomy a.toNat b.toNat with h | h | h
    · exact Or.inl ((lexLe_cons_iff a b as bs).2 (Or.inl h))
    · rcases lexLe_total as bs with ih | ih
      · exact Or.inl ((lexLe_cons_iff a b as bs).2 (Or.inr ⟨h, ih⟩))
      · exact Or.inr ((lexLe_cons_iff b a bs as).2 (Or.inr ⟨h.symm, ih⟩))
    · exact Or.inr ((lexLe_cons_iff b a bs as).2 (Or.inl h))

theorem lexLe_trans : ∀ a b c : List Char,
    lexLe a b = true → lexLe b c = true → lexLe a c = true
  | [], _, _, _, _ => rfl
  | _ :: _, [], _, h, _ => by simp [lexLe] at h
  | _ :: _, _ :: _, [], _, h => by simp [lexLe] at h
  | a :: as, b :: bs, c :: cs, hab, hbc => by
    rcases (lexLe_cons_iff a b as bs).1 hab with h1 | ⟨h1, h1'⟩ <;>
      rcases (lexLe_cons_iff b c bs cs).1 hbc with h2 | ⟨h2, h2'⟩
    · exact (lexLe_cons_iff a c as cs).2 (Or.inl (h1.trans h2))
    · exact (lexLe_cons_iff a c as cs).2 (Or.inl (h2 ▸ h1))
    · exact (lexLe_cons_iff a c as cs).2 (Or.inl (h1 ▸ h2))
    · exact (lexLe_cons_iff a c as cs).2
        (Or.inr ⟨h1.trans h2, lexLe_trans as bs cs h1' h2'⟩)

theorem lexLe_antisymm : ∀ a b : List Char,
    lexLe a b = true → lexLe b a = true → a = b
  | [], [], _, _ => rfl
  | [], _ :: _, _, h => by simp [lexLe] at h
  | _ :: _, [], h, _ => by simp [lexLe] at h
  | a :: as, b :: bs, hab, hba => by
    rcases (lexLe_cons_iff a b as bs).1 hab with h1 | ⟨h1, h1'⟩ <;>
      rcases (lexLe_cons_iff b a bs as).1 hba with h2 | ⟨h2, h2'⟩
    · exact absurd h2 (Nat.lt_asymm h1)
    · exact absurd h1 (h2 ▸ Nat.lt_irrefl _)
    · exact absurd h2 (h1 ▸ Nat.lt_irrefl _)
    · rw [charEq_of_toNat_eq h1, lexLe_antisymm as bs h1' h2']

instance : IsTotal FileId fileLe := ⟨lexLe_total⟩
instance : IsTrans FileId fileLe := ⟨lexLe_trans⟩
instance : IsAntisymm FileId fileLe := ⟨lexLe_antisymm⟩

end DltSpec

namespace DltSpec

theorem singles_join {α : Type} (l : List α) :
    ∀ k, k ≤ l.length →
      ((List.range k).map fun j => (l.drop j).take 1).flatten = l.take k := by
  intro k
  induction k with
  | zero => intro _; simp
  | succ k ih =>
    intro hk
    have hkl : k < l.length := Nat.lt_of_succ_le hk
    rw [List.range_succ, List.map_append, List.flatten_append,
      ih (Nat.le_of_lt hkl)]
    simp only [List.map_cons, List.map_nil, List.flatten_cons, List.flatten_nil,
      List.append_nil]
    exact (List.take_add l k 1).symm

theorem chunks_join {α : Type} (l : List α) (base : Nat) :
    ∀ w, w * base ≤ l.length →
      ((List.range w).map fun i => (l.drop (i * base)).take base).flatten
        = l.take (w * base) := by
  intro w
  induction w with
  | zero => intro _; simp
  | succ w ih =>
    intro hw
    have hw' : w * base ≤ l.length :=
      Nat.le_trans (Nat.mul_le_mul_right base (Nat.le_succ w)) hw
    rw [List.range_succ, List.map_append, List.flatten_append, ih hw']
    simp only [List.map_cons, List.map_nil, List.flatten_cons, List.flatten_nil,
      List.append_nil]
    rw [← List.take_add, Nat.succ_mul]

theorem join_map_append_perm {α β : Type} (f g : α → List β) :
    ∀ xs : List α,
      List.Perm ((xs.map fun x => f x ++ g x).flatten)
        ((xs.map f).flatten ++ (xs.map g).flatten)
  | [] => by simp
  | x :: xs => by
    simp only [List.map_cons, List.flatten_cons]
    have h1 : List.Perm ((f x ++ g x) ++ (xs.map fun x => f x ++ g x).flatten)
        ((f x ++ g x) ++ ((xs.map f).flatten ++ (xs.map g).flatten)) :=
      List.Perm.append_left _ (join_map_append_perm f g xs)
    refine h1.trans ?_
    rw [List.append_assoc, List.append_assoc]
    refine List.Perm.append_left _ ?_
    rw [← List.append_assoc, ← List.append_assoc]
    exact List.Perm.append_right _ List.perm_append_comm

end DltSpec

namespace DltSpec

theorem tails_flatten_general {α : Type} (t : List α) (q : Nat) :
    ((List.range (q + t.length)).map fun i =>
        if q ≤ i then (t.drop (i - q)).take 1 else []).flatten = t := by
  rw [List.range_add, List.map_append, List.flatten_append]
  have h1 : (List.range q).map (fun i =>
      if q ≤ i then (t.drop (i - q)).take 1 else []) =
      (List.range q).map fun _ => ([] : List α) := by
    refine List.map_congr_left ?_
    intro i hi
    rw [if_neg (Nat.not_le.2 (List.mem_range.1 hi))]
  have h2 : ((List.range q).map fun _ => ([] : List α)).flatten = [] := by
    simp
  rw [h1, h2, List.nil_append, List.map_map]
  have h3 : ((fun i => if q ≤ i then (t.drop (i - q)).take 1 else []) ∘ (q + ·)) =
      fun j => (t.drop j).take 1 := by
    funext j
    simp only [Function.comp]
    rw [if_pos (Nat.le_add_right q j), Nat.add_sub_cancel_left]
  rw [h3, singles_join t t.length (Nat.le_refl _), List.take_length]

theorem distGroups_flatten_perm (s : List FileId) (w : Nat)
    (h1 : 0 < w) :
    List.Perm (distGroups s w).flatten s := by
  have hbase : w * (s.length / w) ≤ s.length := by
    rw [Nat.mul_comm]; exact Nat.div_mul_le_self s.length w
  have hrem : s.length % w < w := Nat.mod_lt _ h1
  have hdm : w * (s.length / w) + s.length % w = s.length := Nat.div_add_mod s.length w
  unfold distGroups
  refine (join_map_append_perm _ _ (List.range w)).trans ?_
  rw [chunks_join s (s.length / w) w (by rwa [Nat.mul_comm] at hbase ⊢)]
  have htail : ((List.range w).map fun i =>
      if w - s.length % w ≤ i then
        (s.drop (w * (s.length / w) + (i - (w - s.length % w)))).take 1 else []).flatten
      = s.drop (w * (s.length / w)) := by
    have hshift : ∀ i : Nat, s.drop (w * (s.length / w) + (i - (w - s.length % w))) =
        (s.drop (w * (s.length / w))).drop (i - (w - s.length % w)) := by
      intro i; rw [List.drop_drop]
    have hlen : (s.drop (w * (s.length / w))).length = s.length % w := by
      rw [List.length_drop]; omega
    have hw : w = (w - s.length % w) + (s.drop (w * (s.length / w))).length := by
      rw [hlen]; omega
    calc ((List.range w).map fun i =>
          if w - s.length % w ≤ i then
            (s.drop (w * (s.length / w) + (i - (w - s.length % w)))).take 1 else []).flatten
        = ((List.range ((w - s.length % w) + (s.drop (w * (s.length / w))).length)).map
            fun i => if w - s.length % w ≤ i then
              ((s.drop (w * (s.length / w))).drop (i - (w - s.length % w))).take 1
            else []).flatten := by
          rw [← hw]
          congr 1
          refine List.map_congr_left ?_
          intro i _
          rw [hshift]
      _ = s.drop (w * (s.length / w)) :=
          tails_flatten_general (s.drop (w * (s.length / w))) (w - s.length % w)
  rw [htail, List.take_append_drop]

end DltSpec

namespace DltSpec

theorem distGroups_length (s : List FileId) (w : Nat) :
    (distGroups s w).length = w := by
  unfold distGroups
  rw [List.length_map, List.length_range]

theorem distGroups_mem_shape (s : List FileId) (w : Nat)
    (h1 : 0 < w) (_h2 : w ≤ s.length) :
    ∀ g ∈ distGroups s w,
      g.length = s.length / w ∨ g.length = s.length / w + 1 := by
  intro g hg
  unfold distGroups at hg
  rw [List.mem_map] at hg
  obtain ⟨i, hi, hgi⟩ := hg
  rw [List.mem_range] at hi
  have hbase : w * (s.length / w) ≤ s.length := Nat.mul_div_le s.length w
  have hrem : s.length % w < w := Nat.mod_lt _ h1
  have hdm : w * (s.length / w) + s.length % w = s.length := Nat.div_add_mod s.length w
  have hchunk : ((s.drop (i * (s.length / w))).take (s.length / w)).length
      = s.length / w := by
    rw [List.length_take, List.length_drop]
    have : (i + 1) * (s.length / w) ≤ w * (s.length / w) :=
      Nat.mul_le_mul_right _ hi
    rw [Nat.succ_mul] at this
    omega
  by_cases hc : w - s.length % w ≤ i
  · right
    rw [← hgi, List.length_append, hchunk, if_pos hc, List.length_take,
      List.length_drop]
    omega
  · left
    rw [← hgi, List.length_append, hchunk, if_neg hc]
    rfl

theorem distGroups_mem_ne_nil (s : List FileId) (w : Nat)
    (h1 : 0 < w) (h2 : w ≤ s.length) :
    ∀ g ∈ distGroups s w, g ≠ [] := by
  intro g hg
  have hbase : 1 ≤ s.length / w := (Nat.one_le_div_iff h1).2 h2
  rcases distGroups_mem_shape s w h1 h2 g hg with h | h <;>
    · intro hnil
      rw [hnil] at h
      simp only [List.length_nil] at h
      omega

end DltSpec

namespace DltSpec

theorem sortFiles_sorted (files : List FileId) :
    List.Sorted fileLe (sortFiles files) :=
  List.sorted_insertionSort fileLe files

theorem sortFiles_eq_of_sorted {files : List FileId}
    (hs : List.Sorted fileLe files) : sortFiles files = files :=
  hs.insertionSort_eq

theorem sortFiles_idem (files : List FileId) :
    sortFiles (sortFiles files) = sortFiles files :=
  sortFiles_eq_of_sorted (sortFiles_sorted files)

/-- The concrete file lists used by `test_group_worker_files`. -/
def exFiles8 : List FileId :=
  ["f000","f001","f002","f003","f004","f005","f006","f007"].map String.toList

def exFiles5 : List FileId :=
  ["f000","f001","f002","f003","f004"].map String.toList

def exFilesUnsorted : List FileId :=
  ["tab1.1","chd.3","tab1.2","chd.4","tab1.3"].map String.toList

/-- C1: on a sorted non-empty file list with `w ≥ 1` workers,
`group_worker_files` yields exactly `w' = min w n` groups, group `i`
being the contiguous base-size slice `files[i*base:(i+1)*base]`
(`base = n / w'`), with the trailing file at offset `j` of
`files[w'*base:]` appended to group `w' - rem + j` (`rem = n % w'`). -/
theorem group_worker_files_partition (files : List FileId) (w : Nat)
    (hs : List.Sorted fileLe files) (hn : files ≠ []) (_hw : 1 ≤ w) :
    group_worker_files files w =
      (List.range (min w files.length)).map fun i =>
        (files.drop (i * (files.length / min w files.length))).take
            (files.length / min w files.length) ++
          (if min w files.length - files.length % min w files.length ≤ i then
            (files.drop (min w files.length * (files.length / min w files.length) +
              (i - (min w files.length - files.length % min w files.length)))).take 1
          else []) := by
  have hsf : sortFiles files = files := sortFiles_eq_of_sorted hs
  have hlen : files.length ≠ 0 := fun h => hn (List.length_eq_zero.1 h)
  unfold group_worker_files distGroups
  rw [hsf, if_neg hlen]

/-- C1 witness: the partition description instantiated on the 8-file,
3-worker case of `test_group_worker_files`, together with the two
group layouts the claim lists literally. -/
theorem group_worker_files_partition_witness :
    (List.Sorted fileLe exFiles8 ∧ exFiles8 ≠ [] ∧ 1 ≤ 3) ∧
    (group_worker_files exFiles8 3 =
      (List.range (min 3 exFiles8.length)).map fun i =>
        (exFiles8.drop (i * (exFiles8.length / min 3 exFiles8.length))).take
            (exFiles8.length / min 3 exFiles8.length) ++
          (if min 3 exFiles8.length - exFiles8.length % min 3 exFiles8.length ≤ i then
            (exFiles8.drop (min 3 exFiles8.length *
                (exFiles8.length / min 3 exFiles8.length) +
              (i - (min 3 exFiles8.length -
                exFiles8.length % min 3 exFiles8.length)))).take 1
          else [])) ∧
    group_worker_files exFiles8 3 =
      [["f000","f001"].map String.toList,
       ["f002","f003","f006"].map String.toList,
       ["f004","f005","f007"].map String.toList] ∧
    group_worker_files exFiles5 3 =
      [["f000"].map String.toList,
       ["f001","f003"].map String.toList,
       ["f002","f004"].map String.toList] :=
  ⟨⟨by decide, by decide, by decide⟩,
    group_worker_files_partition exFiles8 3 (by decide) (by decide) (by decide),
    by decide, by decide⟩

end DltSpec

namespace DltSpec

/-- C2 counterexample: on the sorted 5-file list with 3 workers (the
literal case of `test_group_worker_files`), concatenating the returned
groups in order does not reproduce the input list — the trailing files
are interleaved into the last groups, so the claimed concatenation
identity fails. -/
theorem group_worker_files_concat_counterexample :
    List.Sorted fileLe exFiles5 ∧ 1 ≤ 3 ∧
      (group_worker_files exFiles5 3).flatten ≠ exFiles5 := by
  refine ⟨by decide, by decide, by decide⟩

/-- C2 (amended): for every `n ≥ 0`, `w ≥ 1` and sorted file list,
`group_worker_files` returns the empty sequence when `n = 0` and
otherwise exactly `min w n` non-empty groups; concatenating the groups
yields a permutation of the input (not the input itself), and any two
group sizes differ by at most one. -/
theorem group_worker_files_balance (files : List FileId) (w : Nat)
    (hw : 1 ≤ w) (hs : List.Sorted fileLe files) :
    (files = [] → group_worker_files files w = []) ∧
    (files ≠ [] → (group_worker_files files w).length = min w files.length) ∧
    (∀ g ∈ group_worker_files files w, g ≠ []) ∧
    List.Perm (group_worker_files files w).flatten files ∧
    (∀ g1 ∈ group_worker_files files w, ∀ g2 ∈ group_worker_files files w,
      g1.length ≤ g2.length + 1) := by
  have hsf : sortFiles files = files := sortFiles_eq_of_sorted hs
  rcases eq_or_ne files [] with hnil | hne
  · subst hnil
    have : group_worker_files [] w = [] := by
      unfold group_worker_files
      rw [hsf]
      rfl
    rw [this]
    exact ⟨fun _ => rfl, fun h => absurd rfl h, fun g hg => absurd hg (by simp),
      List.Perm.refl _, fun g1 hg1 => absurd hg1 (by simp)⟩
  · have hlen : files.length ≠ 0 := fun h => hne (List.length_eq_zero.1 h)
    have hgw : group_worker_files files w = distGroups files (min w files.length) := by
      unfold group_worker_files
      rw [hsf, if_neg hlen]
    have hw1 : 0 < min w files.length :=
      lt_min (Nat.lt_of_lt_of_le Nat.zero_lt_one hw) (Nat.pos_of_ne_zero hlen)
    have hw2 : min w files.length ≤ files.length := Nat.min_le_right _ _
    refine ⟨fun h => absurd h hne, fun _ => ?_, ?_, ?_, ?_⟩
    · rw [hgw, distGroups_length]
    · rw [hgw]
      exact distGroups_mem_ne_nil files _ hw1 hw2
    · rw [hgw]
      exact distGroups_flatten_perm files _ hw1
    · rw [hgw]
      intro g1 hg1 g2 hg2
      rcases distGroups_mem_shape files _ hw1 hw2 g1 hg1 with h1 | h1 <;>
        rcases distGroups_mem_shape files _ hw1 hw2 g2 hg2 with h2 | h2 <;>
          omega

/-- C2 witness: the balance properties instantiated on the sorted 5-file
list with 3 workers. -/
theorem group_worker_files_balance_witness :
    (1 ≤ 3 ∧ List.Sorted fileLe exFiles5) ∧
    ((exFiles5 = [] → group_worker_files exFiles5 3 = []) ∧
     (exFiles5 ≠ [] → (group_worker_files exFiles5 3).length = min 3 exFiles5.length) ∧
     (∀ g ∈ group_worker_files exFiles5 3, g ≠ []) ∧
     List.Perm (group_worker_files exFiles5 3).flatten exFiles5 ∧
     (∀ g1 ∈ group_worker_files exFiles5 3, ∀ g2 ∈ group_worker_files exFiles5 3,
       g1.length ≤ g2.length + 1)) :=
  ⟨⟨by decide, by decide⟩,
    group_worker_files_balance exFiles5 3 (by decide) (by decide)⟩

end DltSpec

namespace DltSpec

/-- C7: the Work Distributor is deterministic and pure — it is a function
of its two arguments alone, so equal file lists and equal worker counts
always produce identical group sequences. -/
theorem group_worker_files_deterministic (f1 f2 : List FileId) (w1 w2 : Nat)
    (hf : f1 = f2) (hw : w1 = w2) :
    group_worker_files f1 w1 = group_worker_files f2 w2 := by
  rw [hf, hw]

/-- C7 witness: determinism instantiated on the 8-file, 3-worker case. -/
theorem group_worker_files_deterministic_witness :
    exFiles8 = exFiles8 ∧ (3 : Nat) = 3 ∧
      group_worker_files exFiles8 3 = group_worker_files exFiles8 3 :=
  ⟨rfl, rfl, group_worker_files_deterministic exFiles8 exFiles8 3 3 rfl rfl⟩

/-- C8 counterexample: on the unsorted input of `test_group_worker_files`
line 328, the concatenation of the returned groups is not the
lexicographically sorted input list (the trailing files are interleaved),
even though the groups themselves are exactly the ones the test expects. -/
theorem group_worker_files_sorts_counterexample :
    (group_worker_files exFilesUnsorted 3).flatten ≠ sortFiles exFilesUnsorted ∧
    group_worker_files exFilesUnsorted 3 =
      [["chd.3"].map String.toList,
       ["chd.4","tab1.2"].map String.toList,
       ["tab1.1","tab1.3"].map String.toList] := by
  refine ⟨by decide, by decide⟩

/-- C8 (amended): `group_worker_files` sorts its input itself — for every
input list, sorted or not, the result equals the result on the
lexicographically sorted input, and the concatenation of the returned
groups is a permutation of that sorted list; so the stated sortedness
precondition is not needed for a balanced, deterministic result. -/
theorem group_worker_files_sorts_input (files : List FileId) (w : Nat)
    (hw : 1 ≤ w) :
    group_worker_files files w = group_worker_files (sortFiles files) w ∧
    List.Perm (group_worker_files files w).flatten (sortFiles files) := by
  constructor
  · unfold group_worker_files
    rw [sortFiles_idem]
  · rcases Nat.eq_zero_or_pos (sortFiles files).length with hz | hpos
    · unfold group_worker_files
      rw [if_pos hz]
      rw [List.length_eq_zero] at hz
      rw [hz]
      rfl
    · have : group_worker_files files w =
          distGroups (sortFiles files) (min w (sortFiles files).length) := by
        unfold group_worker_files
        rw [if_neg (Nat.pos_iff_ne_zero.1 hpos)]
      rw [this]
      exact distGroups_flatten_perm _ _
        (lt_min (Nat.lt_of_lt_of_le Nat.zero_lt_one hw) hpos)

/-- C8 witness: the sorting behaviour instantiated on the unsorted
five-file input of the test. -/
theorem group_worker_files_sorts_input_witness :
    1 ≤ 3 ∧
    (group_worker_files exFilesUnsorted 3 =
        group_worker_files (sortFiles exFilesUnsorted) 3 ∧
      List.Perm (group_worker_files exFilesUnsorted 3).flatten
        (sortFiles exFilesUnsorted)) :=
  ⟨by decide, group_worker_files_sorts_input exFilesUnsorted 3 (by decide)⟩

end DltSpec

namespace DltSpec

/-! ## Configuration injection (`dlt/common/configuration/inject.py`) -/

/-- A resolved configuration instance: the injectable argument values it
carries (what `dict(config)` yields in `update_bound_args`). -/
structure ConfigInstance where
  fields : List (String × Nat)
deriving DecidableEq

/-- A Python value as it appears among call arguments: a plain value or a
configuration instance. -/
inductive PyVal where
  | plain (v : Nat)
  | config (c : ConfigInstance)
deriving DecidableEq

/-- `_LAST_DLT_CONFIG` (inject.py line 16). -/
def LAST_DLT_CONFIG : String := "_dlt_config"

/-- Python dict assignment `m[k] = v`: overwrite in place if the key is
present, append otherwise. -/
def dictSet (m : List (String × PyVal)) (k : String) (v : PyVal) :
    List (String × PyVal) :=
  if (m.lookup k).isSome then m.map fun p => if p.1 = k then (k, v) else p
  else m ++ [(k, v)]

/-- The function signature data `_wrap` consults: parameters in positional
order, the parameters annotated with the SPEC type, and the VAR_KEYWORD
parameter if any (binding errors for ill-formed calls are outside this
model). -/
structure FunSig where
  params : List String
  specParams : List String
  kwargsParam : Option String
deriving DecidableEq

/-- `sig.bind(*args, **kwargs)` (inject.py line 225): positional arguments
bound to the leading parameters, keyword arguments bound by name. -/
def bindArgs (sig : FunSig) (args : List PyVal)
    (kwargs : List (String × PyVal)) : List (String × PyVal) :=
  sig.params.zip args ++ kwargs

/-- `last_config` (inject.py lines 258-260): the configuration instance
passed under `_dlt_config` in the keyword arguments. -/
def last_config (kwargs : List (String × PyVal)) : Option PyVal :=
  kwargs.lookup LAST_DLT_CONFIG

/-- The resolved parameters of a configuration value (`dict(config)`). -/
def configFields : PyVal → List (String × Nat)
  | .plain _ => []
  | .config c => c.fields

/-- `update_bound_args` (inject.py lines 172-190), parameter loop only:
overwrite or add resolved params (popping each one used), and bind every
SPEC-annotated parameter to the config instance itself.  Returns the
updated bound arguments and the leftover resolved params destined for the
VAR_KEYWORD dict. -/
def update_bound_args (sig : FunSig) (config : PyVal)
    (bound : List (String × PyVal)) :
    List (String × PyVal) × List (String × Nat) :=
  sig.params.foldl
    (fun st p =>
      let b := match st.2.lookup p with
        | some v => dictSet st.1 p (.plain v)
        | none => st.1
      let res := st.2.filter fun q => q.1 ≠ p
      (if sig.specParams.contains p then dictSet b p config else b, res))
    (bound, configFields config)

/-- The observable outcome of one call of a `with_config`-wrapped
function. -/
structure WrapCall where
  /-- the configuration instance handed to `update_bound_args` -/
  configUsed : PyVal
  /-- whether `resolve_config` was invoked -/
  resolveCalled : Bool
  /-- the bound arguments after the `update_bound_args` parameter loop -/
  boundArgs : List (String × PyVal)
  /-- leftover resolved params passed into the VAR_KEYWORD dict, when the
  signature has one (inject.py lines 184-188) -/
  varKwargs : Option (List (String × Nat))
  /-- the value stored under `_dlt_config` in the VAR_KEYWORD dict
  (inject.py line 189) -/
  lastConfigStored : Option PyVal
deriving DecidableEq

/-- `_wrap` (inject.py lines 221-233): bind the call, take the
configuration from the kwargs key `_dlt_config` if present and otherwise
resolve one (`resolver` stands for `resolve_config`), then update the
bound arguments with it. -/
def wrapCall (sig : FunSig) (resolver : List (String × PyVal) → PyVal)
    (args : List PyVal) (kwargs : List (String × PyVal)) : WrapCall :=
  let bound := bindArgs sig args kwargs
  let picked := match kwargs.lookup LAST_DLT_CONFIG with
    | some c => (c, false)
    | none => (resolver bound, true)
  let updated := update_bound_args sig picked.1 bound
  { configUsed := picked.1
    resolveCalled := picked.2
    boundArgs := updated.1
    varKwargs := sig.kwargsParam.map fun _ => updated.2
    lastConfigStored := sig.kwargsParam.map fun _ => picked.1 }

end DltSpec

namespace DltSpec

/-- C9: when the keyword arguments of a `with_config`-decorated call
contain `_dlt_config`, configuration resolution is skipped entirely —
`resolve_config` is never invoked, the outcome does not depend on the
resolver at all — and the configuration instance found under that key
(what `last_config` returns) is the one used to bind the injected
arguments. -/
theorem wrapCall_uses_last_config (sig : FunSig)
    (resolver : List (String × PyVal) → PyVal) (args : List PyVal)
    (kwargs : List (String × PyVal)) (c : PyVal)
    (h : kwargs.lookup LAST_DLT_CONFIG = some c) :
    (wrapCall sig resolver args kwargs).resolveCalled = false ∧
    (wrapCall sig resolver args kwargs).configUsed = c ∧
    last_config kwargs = some c ∧
    ∀ resolver2, wrapCall sig resolver2 args kwargs =
      wrapCall sig resolver args kwargs := by
  refine ⟨?_, ?_, h, ?_⟩
  · unfold wrapCall; rw [h]
  · unfold wrapCall; rw [h]
  · intro resolver2; unfold wrapCall; rw [h]

/-- C9 witness: a concrete call with an explicit config under
`_dlt_config`; the resolver (which would inject field `x := 99`) is
ignored and the passed instance (field `x := 7`) is used. -/
theorem wrapCall_uses_last_config_witness :
    ([("a", PyVal.plain 1), ("_dlt_config", PyVal.config ⟨[("x", 7)]⟩)].lookup
        LAST_DLT_CONFIG = some (PyVal.config ⟨[("x", 7)]⟩)) ∧
    ((wrapCall ⟨["a", "x"], [], some "kw"⟩ (fun _ => PyVal.config ⟨[("x", 99)]⟩)
        [] [("a", PyVal.plain 1), ("_dlt_config", PyVal.config ⟨[("x", 7)]⟩)]).resolveCalled
        = false ∧
      (wrapCall ⟨["a", "x"], [], some "kw"⟩ (fun _ => PyVal.config ⟨[("x", 99)]⟩)
        [] [("a", PyVal.plain 1), ("_dlt_config", PyVal.config ⟨[("x", 7)]⟩)]).configUsed
        = PyVal.config ⟨[("x", 7)]⟩ ∧
      last_config [("a", PyVal.plain 1), ("_dlt_config", PyVal.config ⟨[("x", 7)]⟩)]
        = some (PyVal.config ⟨[("x", 7)]⟩) ∧
      ∀ resolver2,
        wrapCall ⟨["a", "x"], [], some "kw"⟩ resolver2
          [] [("a", PyVal.plain 1), ("_dlt_config", PyVal.config ⟨[("x", 7)]⟩)] =
        wrapCall ⟨["a", "x"], [], some "kw"⟩ (fun _ => PyVal.config ⟨[("x", 99)]⟩)
          [] [("a", PyVal.plain 1), ("_dlt_config", PyVal.config ⟨[("x", 7)]⟩)]) :=
  ⟨by decide,
    wrapCall_uses_last_config ⟨["a", "x"], [], some "kw"⟩
      (fun _ => PyVal.config ⟨[("x", 99)]⟩) []
      [("a", PyVal.plain 1), ("_dlt_config", PyVal.config ⟨[("x", 7)]⟩)]
      (PyVal.config ⟨[("x", 7)]⟩) (by decide)⟩

end DltSpec

namespace DltSpec

/-- A Python function object as `with_config` sees it: an original
function, or a `_wrap` closure around one; `fid` models `id(f)`. -/
inductive PyFun where
  | base (fid : Nat)
  | wrapped (fid : Nat) (inner : PyFun)
deriving DecidableEq

/-- `id(f)`. -/
def PyFun.fid : PyFun → Nat
  | .base i => i
  | .wrapped i _ => i

/-- A configuration spec type (`Type[BaseConfiguration]`) together with
its resolvable fields (`get_resolvable_fields`). -/
structure ConfigSpec where
  specId : Nat
  resolvableFields : List String
deriving DecidableEq

/-- The `_FUNC_SPECS` registry (inject.py line 19), keyed by `id(f)`. -/
abbrev FuncSpecs := List (Nat × ConfigSpec)

/-- `_FUNC_SPECS[id(f)] = SPEC`: dict assignment, newest binding first. -/
def registerSpec (reg : FuncSpecs) (fid : Nat) (spec : ConfigSpec) : FuncSpecs :=
  (fid, spec) :: reg

/-- `get_fun_spec` (inject.py lines 24-25). -/
def get_fun_spec (reg : FuncSpecs) (f : PyFun) : Option ConfigSpec :=
  reg.lookup f.fid

/-- `decorator` (inject.py lines 96-241) at the granularity of its
wrapping and registration behaviour: the SPEC is the supplied one, or
else the one synthesized from the signature (`spec_from_signature`,
passed in here as `synthesized`); its resolvable fields are the
`signature_fields`.  With no signature fields, the spec is registered
for `f` itself and `f` is returned unwrapped (lines 109-113); otherwise
the `_wrap` closure (a fresh object id) is created, registered and
returned (lines 221-241). -/
def decorator (f : PyFun) (specArg : Option ConfigSpec)
    (synthesized : ConfigSpec) (freshId : Nat) (reg : FuncSpecs) :
    PyFun × FuncSpecs :=
  let SPEC := specArg.getD synthesized
  if SPEC.resolvableFields.length = 0 then
    (f, registerSpec reg f.fid SPEC)
  else
    (PyFun.wrapped freshId f, registerSpec reg freshId SPEC)

/-- C10: when the configuration spec synthesized from (or supplied for)
the function has zero resolvable fields, `with_config` returns the
original function object unwrapped, while the spec is still registered so
that `get_fun_spec` applied to the returned function yields it. -/
theorem decorator_no_fields_passthrough (f : PyFun)
    (specArg : Option ConfigSpec) (synthesized : ConfigSpec)
    (freshId : Nat) (reg : FuncSpecs)
    (h : (specArg.getD synthesized).resolvableFields = []) :
    (decorator f specArg synthesized freshId reg).1 = f ∧
    get_fun_spec (decorator f specArg synthesized freshId reg).2
        (decorator f specArg synthesized freshId reg).1 =
      some (specArg.getD synthesized) := by
  unfold decorator
  simp only [h, List.length_nil, if_pos rfl]
  simp [get_fun_spec, registerSpec, List.lookup]

/-- C10 witness: a function whose synthesized spec has no resolvable
fields passes through undecorated yet is registered. -/
theorem decorator_no_fields_passthrough_witness :
    ((none : Option ConfigSpec).getD ⟨5, []⟩).resolvableFields = [] ∧
    ((decorator (PyFun.base 42) none ⟨5, []⟩ 77 []).1 = PyFun.base 42 ∧
      get_fun_spec (decorator (PyFun.base 42) none ⟨5, []⟩ 77 []).2
          (decorator (PyFun.base 42) none ⟨5, []⟩ 77 []).1 =
        some ((none : Option ConfigSpec).getD ⟨5, []⟩)) :=
  ⟨by decide,
    decorator_no_fields_passthrough (PyFun.base 42) none ⟨5, []⟩ 77 [] (by decide)⟩

end DltSpec

namespace DltSpec

/-! ## Schema Registry (spec §3, §4.1) -/

/-- A normalized table/column/path name. -/
abbrev Name := List Char

/-- Association-list lookup with decidable keys, mirroring Python dict
access. -/
def alookup {κ α : Type} [DecidableEq κ] (k : κ) : List (κ × α) → Option α
  | [] => none
  | p :: rest => if p.1 = k then some p.2 else alookup k rest

/-- Modelled from the spec: the fixed portable type vocabulary of a
column (spec §3, "Column"). -/
inductive DType where
  | text | double | bool | timestamp | bigint | binary | decimal | complex
deriving DecidableEq

/-- The printable tag of a data type, as used in variant column names. -/
def DType.tag : DType → Name
  | .text => "text".toList
  | .double => "double".toList
  | .bool => "bool".toList
  | .timestamp => "timestamp".toList
  | .bigint => "bigint".toList
  | .binary => "binary".toList
  | .decimal => "decimal".toList
  | .complex => "complex".toList

/-- An input document value: scalars, nested objects and arrays. -/
inductive JVal where
  | str (v : List Char)
  | int (v : Int)
  | bool (v : Bool)
  | obj (fields : List (Name × JVal))
  | arr (elems : List JVal)

/-- Modelled from the spec: the classifier from raw decoded values to the
fixed type vocabulary (spec §9: "an explicit classifier function from raw
decoded values to that sum type"). -/
def classify : JVal → DType
  | .str _ => .text
  | .int _ => .bigint
  | .bool _ => .bool
  | .obj _ => .complex
  | .arr _ => .complex

/-- A column definition (spec §3, "Column"). -/
structure Column where
  name : Name
  dataType : DType
  nullable : Bool
  variant : Bool
deriving DecidableEq

/-- A table definition (spec §3, "Table"). -/
structure Table where
  name : Name
  parent : Option Name
  columns : List (Name × Column)
deriving DecidableEq

/-- Variant columns are named `<path>__v_<type>` (spec §3). -/
def variantName (path : Name) (t : DType) : Name :=
  path ++ "__v_".toList ++ t.tag

/-- Modelled from the spec: `infer_or_get_column` (spec §4.1; the schema
module of the repository is not under src/).  A column's type is fixed on
first observation; a later value of an incompatible type is redirected to
a variant column `<path>__v_<inferred_type>`, created on demand; column
addition is additive and nullable. -/
def infer_or_get_column (tbl : Table) (path : Name) (v : JVal) : Column × Table :=
  match alookup path tbl.columns with
  | none =>
      (⟨path, classify v, true, false⟩,
       { tbl with columns :=
          tbl.columns ++ [(path, ⟨path, classify v, true, false⟩)] })
  | some c =>
      if c.dataType = classify v then (c, tbl)
      else
        match alookup (variantName path (classify v)) tbl.columns with
        | some vc => (vc, tbl)
        | none =>
            (⟨variantName path (classify v), classify v, true, true⟩,
             { tbl with columns := tbl.columns ++
                [(variantName path (classify v),
                  ⟨variantName path (classify v), classify v, true, true⟩)] })

/-- Modelled from the spec: merging a column delta into a table's columns
(spec §4.1, "Column addition is always additive"); present columns are
kept untouched, absent ones are appended; the flag records whether any
column was actually added. -/
def mergeColumnsF : List (Name × Column) → List (Name × Column) →
    List (Name × Column) × Bool
  | cols, [] => (cols, false)
  | cols, kv :: rest =>
    if (alookup kv.1 cols).isSome then mergeColumnsF cols rest
    else
      let next := mergeColumnsF (cols ++ [kv]) rest
      (next.1, true)

/-- One schema-affecting operation on a table: a value observation during
flattening (spec §4.2), or the merge of a worker-produced column delta
(spec §4.1). -/
inductive TableOp where
  | observe (path : Name) (v : JVal)
  | merge (delta : List (Name × Column))

def applyOp (t : Table) : TableOp → Table
  | .observe p v => (infer_or_get_column t p v).2
  | .merge d => { t with columns := (mergeColumnsF t.columns d).1 }

def applyOps (t : Table) (ops : List TableOp) : Table := ops.foldl applyOp t

end DltSpec

namespace DltSpec

theorem alookup_append_left {κ α : Type} [DecidableEq κ] (k : κ)
    (l1 l2 : List (κ × α)) (v : α) (h : alookup k l1 = some v) :
    alookup k (l1 ++ l2) = some v := by
  induction l1 with
  | nil => exact absurd h (by simp [alookup])
  | cons p rest ih =>
    rw [List.cons_append]
    unfold alookup at h ⊢
    by_cases hp : p.1 = k
    · rwa [if_pos hp] at h ⊢
    · rw [if_neg hp] at h ⊢
      exact ih h

theorem alookup_cons {κ α : Type} [DecidableEq κ] (k : κ) (p : κ × α)
    (rest : List (κ × α)) :
    alookup k (p :: rest) = if p.1 = k then some p.2 else alookup k rest := rfl

theorem alookup_append_right {κ α : Type} [DecidableEq κ] (k : κ)
    (l1 l2 : List (κ × α)) (h : alookup k l1 = none) :
    alookup k (l1 ++ l2) = alookup k l2 := by
  induction l1 with
  | nil => rfl
  | cons p rest ih =>
    rw [alookup_cons] at h
    rw [List.cons_append, alookup_cons]
    by_cases hp : p.1 = k
    · rw [if_pos hp] at h; exact absurd h (by simp)
    · rw [if_neg hp] at h ⊢
      exact ih h

theorem alookup_singleton_self {κ α : Type} [DecidableEq κ] (k : κ) (v : α) :
    alookup k [(k, v)] = some v := by
  unfold alookup
  rw [if_pos rfl]

/-- `infer_or_get_column` never changes an existing column binding. -/
theorem infer_preserves (tbl : Table) (path : Name) (v : JVal)
    (k : Name) (c : Column) (h : alookup k tbl.columns = some c) :
    alookup k (infer_or_get_column tbl path v).2.columns = some c := by
  unfold infer_or_get_column
  split
  next => exact alookup_append_left k _ _ c h
  next c0 _ =>
    split
    next => exact h
    next =>
      split
      next => exact h
      next => exact alookup_append_left k _ _ c h

/-- `mergeColumnsF` never changes an existing column binding. -/
theorem mergeColumnsF_preserves (delta : List (Name × Column)) :
    ∀ (cols : List (Name × Column)) (k : Name) (c : Column),
      alookup k cols = some c → alookup k (mergeColumnsF cols delta).1 = some c := by
  induction delta with
  | nil => intro cols k c h; exact h
  | cons kv rest ih =>
    intro cols k c h
    unfold mergeColumnsF
    by_cases hk : (alookup kv.1 cols).isSome
    · rw [if_pos hk]
      exact ih cols k c h
    · rw [if_neg hk]
      exact ih _ k c (alookup_append_left k _ _ c h)

/-- Any sequence of observations and merges preserves every existing
column binding — in particular a column's data type, once fixed, never
changes. -/
theorem applyOps_preserves (ops : List TableOp) :
    ∀ (t : Table) (k : Name) (c : Column),
      alookup k t.columns = some c → alookup k (applyOps t ops).columns = some c := by
  induction ops with
  | nil => intro t k c h; exact h
  | cons op rest ih =>
    intro t k c h
    unfold applyOps
    rw [List.foldl_cons]
    refine ih _ k c ?_
    cases op with
    | observe p v => exact infer_preserves t p v k c h
    | merge d => exact mergeColumnsF_preserves d t.columns k c h

end DltSpec

namespace DltSpec

theorem alookup_mem {κ α : Type} [DecidableEq κ] (k : κ) (l : List (κ × α))
    (x : α) (h : alookup k l = some x) : (k, x) ∈ l := by
  induction l with
  | nil => exact absurd h (by simp [alookup])
  | cons p rest ih =>
    rw [alookup_cons] at h
    by_cases hp : p.1 = k
    · rw [if_pos hp] at h
      have hx : p.2 = x := Option.some.inj h
      obtain ⟨p1, p2⟩ := p
      cases hp
      cases hx
      exact List.mem_cons_self _ _
    · rw [if_neg hp] at h
      exact List.mem_cons_of_mem _ (ih h)

/-- The behaviour of `infer_or_get_column` on a type conflict: the
variant column is looked up or created, the table is otherwise
untouched. -/
theorem infer_conflict (tbl : Table) (path : Name) (v : JVal) (c : Column)
    (hc : alookup path tbl.columns = some c)
    (hconf : ¬ c.dataType = classify v) :
    infer_or_get_column tbl path v =
      match alookup (variantName path (classify v)) tbl.columns with
      | some vc => (vc, tbl)
      | none =>
          (⟨variantName path (classify v), classify v, true, true⟩,
           { tbl with columns := tbl.columns ++
              [(variantName path (classify v),
                ⟨variantName path (classify v), classify v, true, true⟩)] }) := by
  unfold infer_or_get_column
  rw [hc]
  simp only [if_neg hconf]

/-- C3 (schema type stability): once a column's data type is fixed for a
path, no sequence of flatten observations and delta merges ever changes
that column; feeding a value of a conflicting type instead yields the
variant column named `<path>__v_<inferred_type>`, which coexists with
the untouched base column. -/
theorem schema_type_stability (t : Table) (path : Name) (c : Column) (v : JVal)
    (hwf : ∀ p ∈ t.columns, p.2.name = p.1)
    (hc : alookup path t.columns = some c)
    (hconf : ¬ c.dataType = classify v) :
    (∀ ops : List TableOp, alookup path (applyOps t ops).columns = some c) ∧
    (infer_or_get_column t path v).1.name = variantName path (classify v) ∧
    alookup path (infer_or_get_column t path v).2.columns = some c ∧
    alookup (variantName path (classify v))
        (infer_or_get_column t path v).2.columns =
      some (infer_or_get_column t path v).1 := by
  refine ⟨fun ops => applyOps_preserves ops t path c hc, ?_, ?_, ?_⟩
  · rw [infer_conflict t path v c hc hconf]
    cases hv : alookup (variantName path (classify v)) t.columns with
    | some vc => exact hwf _ (alookup_mem _ _ _ hv)
    | none => rfl
  · exact infer_preserves t path v path c hc
  · rw [infer_conflict t path v c hc hconf]
    cases hv : alookup (variantName path (classify v)) t.columns with
    | some vc => exact hv
    | none =>
      exact (alookup_append_right _ _ _ hv).trans (alookup_singleton_self _ _)

/-- The `doc` table of `test_schema_changes` after the first load: column
`int` was inferred as bigint. -/
def exDocTable : Table :=
  ⟨"doc".toList, none,
    [("int".toList, ⟨"int".toList, DType.bigint, true, false⟩)]⟩

def exIntColumn : Column := ⟨"int".toList, DType.bigint, true, false⟩

/-- C3 witness: feeding the text value `"hundred"` at bigint column `int`
(the `doc_v` case of `test_schema_changes`) leaves `int` a bigint — also
after a further observation and a merge — and yields the variant column
`int__v_text`. -/
theorem schema_type_stability_witness :
    ((∀ p ∈ exDocTable.columns, p.2.name = p.1) ∧
      alookup "int".toList exDocTable.columns = some exIntColumn ∧
      ¬ exIntColumn.dataType = classify (JVal.str "hundred".toList)) ∧
    alookup "int".toList
      (applyOps exDocTable
        [TableOp.observe "int".toList (JVal.str "hundred".toList),
         TableOp.merge [("bool".toList, ⟨"bool".toList, DType.bool, true, false⟩)]]).columns
      = some exIntColumn ∧
    (infer_or_get_column exDocTable "int".toList (JVal.str "hundred".toList)).1.name
      = variantName "int".toList (classify (JVal.str "hundred".toList)) ∧
    variantName "int".toList (classify (JVal.str "hundred".toList))
      = "int__v_text".toList ∧
    alookup "int".toList
        (infer_or_get_column exDocTable "int".toList
          (JVal.str "hundred".toList)).2.columns = some exIntColumn ∧
    alookup "int__v_text".toList
        (infer_or_get_column exDocTable "int".toList
          (JVal.str "hundred".toList)).2.columns
      = some (infer_or_get_column exDocTable "int".toList
          (JVal.str "hundred".toList)).1 := by
  have h := schema_type_stability exDocTable "int".toList exIntColumn
    (JVal.str "hundred".toList) (by decide) (by decide) (by decide)
  refine ⟨⟨by decide, by decide, by decide⟩,
    h.1 [TableOp.observe "int".toList (JVal.str "hundred".toList),
         TableOp.merge [("bool".toList, ⟨"bool".toList, DType.bool, true, false⟩)]],
    h.2.1, by decide, h.2.2.1, ?_⟩
  have hv := h.2.2.2
  have hn : variantName "int".toList (classify (JVal.str "hundred".toList))
      = "int__v_text".toList := by decide
  rwa [hn] at hv

end DltSpec

namespace DltSpec

/-- A schema: named, monotonically versioned map of tables (spec §3). -/
structure Schema where
  name : Name
  version : Nat
  tables : List (Name × Table)
deriving DecidableEq

/-- A worker-produced schema delta: the new/changed tables and columns
discovered while flattening one batch (spec glossary, "Schema delta"). -/
abbrev SchemaDelta := List (Name × Table)

/-- Python dict assignment on the table map: replace the binding of `k`
in place. -/
def tabSet (tabs : List (Name × Table)) (k : Name) (t : Table) :
    List (Name × Table) :=
  tabs.map fun p => if p.1 = k then (k, t) else p

/-- Modelled from the spec: merging a worker delta's tables into the
canonical table map (spec §4.1, "Merging a worker-produced delta ... is
idempotent ... version increments only on an actual structural change
(column or table added)").  Existing tables receive the delta's missing
columns (their own name, parent and existing columns kept); missing
tables are added whole; the flag records whether any table or column was
actually added. -/
def mergeTables : List (Name × Table) → SchemaDelta → List (Name × Table) × Bool
  | tabs, [] => (tabs, false)
  | tabs, kv :: rest =>
    match alookup kv.1 tabs with
    | some t =>
        let mc := mergeColumnsF t.columns kv.2.columns
        let next := mergeTables (tabSet tabs kv.1 { t with columns := mc.1 }) rest
        (next.1, mc.2 || next.2)
    | none => ((mergeTables (tabs ++ [kv]) rest).1, true)

/-- Modelled from the spec: `merge(delta) -> bumped_version?`
(spec §4.1): apply the delta to the table map and bump the version
exactly when something was actually added. -/
def mergeSchema (s : Schema) (d : SchemaDelta) : Schema :=
  { s with
    tables := (mergeTables s.tables d).1
    version := if (mergeTables s.tables d).2 then s.version + 1 else s.version }

/-- Total cell count of a table map: one per table plus one per column. -/
def tabCells (tabs : List (Name × Table)) : Nat :=
  (tabs.map fun p => p.2.columns.length + 1).sum

theorem alookup_none_iff {κ α : Type} [DecidableEq κ] (k : κ)
    (l : List (κ × α)) : alookup k l = none ↔ k ∉ l.map Prod.fst := by
  induction l with
  | nil => simp [alookup]
  | cons p rest ih =>
    rw [alookup_cons]
    by_cases hp : p.1 = k
    · rw [if_pos hp]
      simp [hp]
    · rw [if_neg hp]
      simp only [List.map_cons, List.mem_cons, ih]
      constructor
      · intro h hmem
        rcases hmem with h1 | h1
        · exact hp h1.symm
        · exact h h1
      · intro h
        exact fun h1 => h (Or.inr h1)

theorem alookup_isSome_of_mem {κ α : Type} [DecidableEq κ] (k : κ) (x : α)
    (l : List (κ × α)) (h : (k, x) ∈ l) : (alookup k l).isSome := by
  induction l with
  | nil => exact absurd h (by simp)
  | cons p rest ih =>
    rw [alookup_cons]
    by_cases hp : p.1 = k
    · rw [if_pos hp]; rfl
    · rw [if_neg hp]
      rcases List.mem_cons.1 h with h1 | h1
      · exact absurd (congrArg Prod.fst h1.symm) hp
      · exact ih h1

theorem tabSet_keys (tabs : List (Name × Table)) (k : Name) (t : Table) :
    (tabSet tabs k t).map Prod.fst = tabs.map Prod.fst := by
  unfold tabSet
  rw [List.map_map]
  refine List.map_congr_left ?_
  intro p _
  by_cases hp : p.1 = k
  · simp [hp]
  · simp [hp]

theorem tabSet_lookup_self (tabs : List (Name × Table)) (k : Name) (t : Table)
    (h : (alookup k tabs).isSome) : alookup k (tabSet tabs k t) = some t := by
  induction tabs with
  | nil => exact absurd h (by simp [alookup])
  | cons p rest ih =>
    unfold tabSet
    rw [List.map_cons]
    by_cases hp : p.1 = k
    · rw [if_pos hp, alookup_cons, if_pos rfl]
    · rw [if_neg hp, alookup_cons, if_neg hp]
      rw [alookup_cons, if_neg hp] at h
      exact ih h

theorem tabSet_lookup_other (tabs : List (Name × Table)) (k k' : Name)
    (t : Table) (hne : k' ≠ k) :
    alookup k' (tabSet tabs k t) = alookup k' tabs := by
  induction tabs with
  | nil => rfl
  | cons p rest ih =>
    unfold tabSet
    rw [List.map_cons]
    by_cases hp : p.1 = k
    · rw [if_pos hp, alookup_cons, alookup_cons, if_neg (fun h => hne h.symm),
        if_neg (fun h => hne ((hp ▸ h : (k : Name) = k')).symm)]
      exact ih
    · rw [if_neg hp, alookup_cons, alookup_cons]
      by_cases hp' : p.1 = k'
      · rw [if_pos hp', if_pos hp']
      · rw [if_neg hp', if_neg hp']
        exact ih

theorem tabSet_of_absent (tabs : List (Name × Table)) (k : Name) (t : Table)
    (h : ∀ p ∈ tabs, p.1 ≠ k) : tabSet tabs k t = tabs := by
  induction tabs with
  | nil => rfl
  | cons p rest ih =>
    unfold tabSet
    rw [List.map_cons, if_neg (h p (List.mem_cons_self _ _))]
    have := ih fun q hq => h q (List.mem_cons_of_mem _ hq)
    unfold tabSet at this
    rw [this]

theorem not_mem_keys_of_nodup_head (p : Name × Table)
    (rest : List (Name × Table))
    (h : ((p :: rest).map Prod.fst).Nodup) : ∀ q ∈ rest, q.1 ≠ p.1 := by
  rw [List.map_cons, List.nodup_cons] at h
  intro q hq he
  exact h.1 (he ▸ List.mem_map_of_mem Prod.fst hq)

theorem tabSet_id (tabs : List (Name × Table)) (k : Name) (t : Table)
    (hnd : (tabs.map Prod.fst).Nodup) (h : alookup k tabs = some t) :
    tabSet tabs k t = tabs := by
  induction tabs with
  | nil => rfl
  | cons p rest ih =>
    rw [alookup_cons] at h
    unfold tabSet
    rw [List.map_cons]
    by_cases hp : p.1 = k
    · rw [if_pos hp] at h ⊢
      have hpt : p = (k, t) := by
        obtain ⟨p1, p2⟩ := p
        cases hp
        cases Option.some.inj h
        rfl
      have habs : tabSet rest k t = rest := by
        refine tabSet_of_absent rest k t ?_
        intro q hq
        exact hp ▸ not_mem_keys_of_nodup_head p rest hnd q hq
      unfold tabSet at habs
      rw [habs, hpt]
    · rw [if_neg hp] at h ⊢
      rw [List.map_cons, List.nodup_cons] at hnd
      have := ih hnd.2 h
      unfold tabSet at this
      rw [this]

end DltSpec

namespace DltSpec

theorem mergeColumnsF_flag_false (delta : List (Name × Column)) :
    ∀ cols, (mergeColumnsF cols delta).2 = false →
      (mergeColumnsF cols delta).1 = cols := by
  induction delta with
  | nil => intro cols _; rfl
  | cons kv rest ih =>
    intro cols hf
    unfold mergeColumnsF at hf ⊢
    by_cases hk : (alookup kv.1 cols).isSome
    · rw [if_pos hk] at hf ⊢
      exact ih cols hf
    · rw [if_neg hk] at hf
      exact absurd hf (by simp)

theorem mergeColumnsF_isSome (delta : List (Name × Column)) :
    ∀ cols k, (alookup k cols).isSome →
      (alookup k (mergeColumnsF cols delta).1).isSome := by
  intro cols k h
  rw [Option.isSome_iff_exists] at h
  obtain ⟨c, hc⟩ := h
  rw [Option.isSome_iff_exists]
  exact ⟨c, mergeColumnsF_preserves delta cols k c hc⟩

theorem mergeColumnsF_delta_present (delta : List (Name × Column)) :
    ∀ cols, ∀ kv ∈ delta, (alookup kv.1 (mergeColumnsF cols delta).1).isSome := by
  induction delta with
  | nil => intro cols kv h; exact absurd h (by simp)
  | cons kv0 rest ih =>
    intro cols kv hkv
    unfold mergeColumnsF
    rcases List.mem_cons.1 hkv with h1 | h1
    · subst h1
      by_cases hk : (alookup kv.1 cols).isSome
      · rw [if_pos hk]
        exact mergeColumnsF_isSome rest cols kv.1 hk
      · rw [if_neg hk]
        refine mergeColumnsF_isSome rest _ kv.1 ?_
        rw [alookup_append_right _ _ _ (Option.not_isSome_iff_eq_none.1 hk),
          alookup_singleton_self]
        rfl
    · by_cases hk : (alookup kv0.1 cols).isSome
      · rw [if_pos hk]
        exact ih cols kv h1
      · rw [if_neg hk]
        exact ih _ kv h1

theorem mergeColumnsF_noop (delta : List (Name × Column)) :
    ∀ cols, (∀ kv ∈ delta, (alookup kv.1 cols).isSome) →
      mergeColumnsF cols delta = (cols, false) := by
  induction delta with
  | nil => intro cols _; rfl
  | cons kv rest ih =>
    intro cols h
    unfold mergeColumnsF
    rw [if_pos (h kv (List.mem_cons_self _ _))]
    exact ih cols fun q hq => h q (List.mem_cons_of_mem _ hq)

theorem mergeColumnsF_length (delta : List (Name × Column)) :
    ∀ cols, cols.length ≤ (mergeColumnsF cols delta).1.length ∧
      ((mergeColumnsF cols delta).2 = true →
        cols.length < (mergeColumnsF cols delta).1.length) := by
  induction delta with
  | nil =>
    intro cols
    exact ⟨Nat.le_refl _, fun h => by simp [mergeColumnsF] at h⟩
  | cons kv rest ih =>
    intro cols
    unfold mergeColumnsF
    by_cases hk : (alookup kv.1 cols).isSome
    · rw [if_pos hk]
      exact ih cols
    · rw [if_neg hk]
      have h1 := ih (cols ++ [kv])
      rw [List.length_append, List.length_cons, List.length_nil] at h1
      dsimp only
      exact ⟨by omega, fun _ => by omega⟩

end DltSpec

namespace DltSpec

/-- A table and one of its columns are present in a table map. -/
def colPresent (tabs : List (Name × Table)) (k c : Name) : Prop :=
  ∃ t, alookup k tabs = some t ∧ (alookup c t.columns).isSome

theorem tabCells_cons (p : Name × Table) (rest : List (Name × Table)) :
    tabCells (p :: rest) = p.2.columns.length + 1 + tabCells rest := by
  unfold tabCells
  rw [List.map_cons, List.sum_cons]

theorem tabSet_cons (p : Name × Table) (rest : List (Name × Table))
    (k : Name) (t : Table) :
    tabSet (p :: rest) k t =
      (if p.1 = k then (k, t) else p) :: tabSet rest k t := rfl

theorem tabSet_cells (tabs : List (Name × Table)) (k : Name) (t t' : Table)
    (hnd : (tabs.map Prod.fst).Nodup) (h : alookup k tabs = some t) :
    tabCells (tabSet tabs k t') + t.columns.length =
      tabCells tabs + t'.columns.length := by
  induction tabs with
  | nil => exact absurd h (by simp [alookup])
  | cons p rest ih =>
    rw [alookup_cons] at h
    by_cases hp : p.1 = k
    · rw [if_pos hp] at h
      have hpt : p.2 = t := Option.some.inj h
      rw [tabSet_cons, if_pos hp, tabCells_cons, tabCells_cons,
        tabSet_of_absent rest k t'
          (fun q hq => hp ▸ not_mem_keys_of_nodup_head p rest hnd q hq),
        hpt]
      dsimp only
      omega
    · rw [if_neg hp] at h
      rw [List.map_cons, List.nodup_cons] at hnd
      rw [tabSet_cons, if_neg hp, tabCells_cons, tabCells_cons]
      have := ih hnd.2 h
      omega

theorem tabCells_append (tabs : List (Name × Table)) (kv : Name × Table) :
    tabCells (tabs ++ [kv]) = tabCells tabs + (kv.2.columns.length + 1) := by
  unfold tabCells
  rw [List.map_append, List.sum_append]
  simp

theorem nodup_keys_append (tabs : List (Name × Table)) (kv : Name × Table)
    (hnd : (tabs.map Prod.fst).Nodup) (h : alookup kv.1 tabs = none) :
    ((tabs ++ [kv]).map Prod.fst).Nodup := by
  rw [List.map_append]
  refine ((List.perm_append_singleton _ _).nodup_iff).2 ?_
  rw [List.nodup_cons]
  exact ⟨(alookup_none_iff kv.1 tabs).1 h, hnd⟩

theorem mergeTables_step_key (tabs : List (Name × Table)) (kv : Name × Table)
    (t0 : Table) (ht0 : alookup kv.1 tabs = some t0) (t1 : Table) (k : Name)
    (h : (alookup k tabs).isSome) :
    (alookup k (tabSet tabs kv.1 t1)).isSome := by
  by_cases hk : k = kv.1
  · subst hk
    rw [tabSet_lookup_self tabs kv.1 t1 (by rw [ht0]; rfl)]
    rfl
  · rwa [tabSet_lookup_other tabs kv.1 k t1 hk]

theorem mergeTables_step_col (tabs : List (Name × Table)) (kv : Name × Table)
    (t0 : Table) (ht0 : alookup kv.1 tabs = some t0) (k c : Name)
    (h : colPresent tabs k c) :
    colPresent (tabSet tabs kv.1
      { t0 with columns := (mergeColumnsF t0.columns kv.2.columns).1 }) k c := by
  obtain ⟨t, ht, hc⟩ := h
  by_cases hk : k = kv.1
  · subst hk
    have heq : t = t0 := Option.some.inj (ht.symm.trans ht0)
    subst heq
    refine ⟨{ t with columns := (mergeColumnsF t.columns kv.2.columns).1 },
      tabSet_lookup_self tabs kv.1 _ (by rw [ht]; rfl), ?_⟩
    exact mergeColumnsF_isSome kv.2.columns t.columns c hc
  · exact ⟨t, (tabSet_lookup_other tabs kv.1 k _ hk).trans ht, hc⟩

theorem append_pres_key (tabs : List (Name × Table)) (kv : Name × Table)
    (k : Name) (h : (alookup k tabs).isSome) :
    (alookup k (tabs ++ [kv])).isSome := by
  rw [Option.isSome_iff_exists] at h
  obtain ⟨t, ht⟩ := h
  rw [alookup_append_left k tabs [kv] t ht]
  rfl

theorem append_pres_col (tabs : List (Name × Table)) (kv : Name × Table)
    (k c : Name) (h : colPresent tabs k c) :
    colPresent (tabs ++ [kv]) k c := by
  obtain ⟨t, ht, hc⟩ := h
  exact ⟨t, alookup_append_left k tabs [kv] t ht, hc⟩

theorem mergeTables_pres (delta : SchemaDelta) :
    ∀ tabs : List (Name × Table),
      (∀ k, (alookup k tabs).isSome →
        (alookup k (mergeTables tabs delta).1).isSome) ∧
      (∀ k c, colPresent tabs k c → colPresent (mergeTables tabs delta).1 k c) := by
  induction delta with
  | nil => intro tabs; exact ⟨fun k h => h, fun k c h => h⟩
  | cons kv rest ih =>
    intro tabs
    unfold mergeTables
    cases ht0 : alookup kv.1 tabs with
    | some t0 =>
      constructor
      · intro k h
        exact (ih _).1 k (mergeTables_step_key tabs kv t0 ht0 _ k h)
      · intro k c h
        exact (ih _).2 k c (mergeTables_step_col tabs kv t0 ht0 k c h)
    | none =>
      constructor
      · intro k h
        exact (ih _).1 k (append_pres_key tabs kv k h)
      · intro k c h
        exact (ih _).2 k c (append_pres_col tabs kv k c h)

theorem mergeTables_delta_present (delta : SchemaDelta) :
    ∀ tabs : List (Name × Table), ∀ kv ∈ delta,
      (alookup kv.1 (mergeTables tabs delta).1).isSome ∧
      ∀ cv ∈ kv.2.columns, colPresent (mergeTables tabs delta).1 kv.1 cv.1 := by
  induction delta with
  | nil => intro tabs kv h; exact absurd h (by simp)
  | cons kv0 rest ih =>
    intro tabs kv hkv
    unfold mergeTables
    rcases List.mem_cons.1 hkv with h1 | h1
    · subst h1
      cases ht0 : alookup kv.1 tabs with
      | some t0 =>
        have hself : alookup kv.1 (tabSet tabs kv.1
            { t0 with columns := (mergeColumnsF t0.columns kv.2.columns).1 }) =
            some { t0 with columns := (mergeColumnsF t0.columns kv.2.columns).1 } :=
          tabSet_lookup_self tabs kv.1 _ (by rw [ht0]; rfl)
        constructor
        · refine (mergeTables_pres rest _).1 kv.1 ?_
          rw [hself]; rfl
        · intro cv hcv
          refine (mergeTables_pres rest _).2 kv.1 cv.1 ?_
          exact ⟨_, hself, mergeColumnsF_delta_present kv.2.columns t0.columns cv hcv⟩
      | none =>
        have hself : alookup kv.1 (tabs ++ [kv]) = some kv.2 := by
          rw [alookup_append_right _ _ _ ht0, alookup_singleton_self]
        constructor
        · refine (mergeTables_pres rest _).1 kv.1 ?_
          rw [hself]; rfl
        · intro cv hcv
          refine (mergeTables_pres rest _).2 kv.1 cv.1 ?_
          exact ⟨kv.2, hself, alookup_isSome_of_mem cv.1 cv.2 kv.2.columns
            (by rcases cv with ⟨c1, c2⟩; exact hcv)⟩
    · cases ht0 : alookup kv0.1 tabs with
      | some t0 => exact ih _ kv h1
      | none => exact ih _ kv h1

theorem mergeTables_nodup (delta : SchemaDelta) :
    ∀ tabs : List (Name × Table), (tabs.map Prod.fst).Nodup →
      (((mergeTables tabs delta).1).map Prod.fst).Nodup := by
  induction delta with
  | nil => intro tabs h; exact h
  | cons kv rest ih =>
    intro tabs hnd
    unfold mergeTables
    cases ht0 : alookup kv.1 tabs with
    | some t0 =>
      refine ih _ ?_
      rw [tabSet_keys]
      exact hnd
    | none => exact ih _ (nodup_keys_append tabs kv hnd ht0)

end DltSpec

namespace DltSpec

theorem table_eta (t : Table) : { t with columns := t.columns } = t := rfl

theorem mergeTables_noop (delta : SchemaDelta) :
    ∀ tabs : List (Name × Table), (tabs.map Prod.fst).Nodup →
      (∀ kv ∈ delta, ∃ t, alookup kv.1 tabs = some t ∧
        ∀ cv ∈ kv.2.columns, (alookup cv.1 t.columns).isSome) →
      mergeTables tabs delta = (tabs, false) := by
  induction delta with
  | nil => intro tabs _ _; rfl
  | cons kv rest ih =>
    intro tabs hnd h
    obtain ⟨t, ht, hcols⟩ := h kv (List.mem_cons_self _ _)
    unfold mergeTables
    rw [ht]
    have hmc : mergeColumnsF t.columns kv.2.columns = (t.columns, false) :=
      mergeColumnsF_noop kv.2.columns t.columns
        (fun cv hcv => hcols cv hcv)
    dsimp only
    rw [hmc]
    dsimp only
    rw [table_eta, tabSet_id tabs kv.1 t hnd ht,
      ih tabs hnd (fun q hq => h q (List.mem_cons_of_mem _ hq))]
    rfl

theorem mergeTables_flag_false (delta : SchemaDelta) :
    ∀ tabs : List (Name × Table), (tabs.map Prod.fst).Nodup →
      (mergeTables tabs delta).2 = false → (mergeTables tabs delta).1 = tabs := by
  induction delta with
  | nil => intro tabs _ _; rfl
  | cons kv rest ih =>
    intro tabs hnd hf
    unfold mergeTables at hf ⊢
    cases ht : alookup kv.1 tabs with
    | some t =>
      rw [ht] at hf
      dsimp only at hf ⊢
      rw [Bool.or_eq_false_iff] at hf
      have hmc1 : (mergeColumnsF t.columns kv.2.columns).1 = t.columns :=
        mergeColumnsF_flag_false kv.2.columns t.columns hf.1
      rw [hmc1, table_eta, tabSet_id tabs kv.1 t hnd ht] at hf ⊢
      exact ih tabs hnd hf.2
    | none =>
      rw [ht] at hf
      dsimp only at hf
      exact absurd hf (by simp)

theorem mergeTables_cells (delta : SchemaDelta) :
    ∀ tabs : List (Name × Table), (tabs.map Prod.fst).Nodup →
      tabCells tabs ≤ tabCells (mergeTables tabs delta).1 ∧
      ((mergeTables tabs delta).2 = true →
        tabCells tabs < tabCells (mergeTables tabs delta).1) := by
  induction delta with
  | nil =>
    intro tabs _
    exact ⟨Nat.le_refl _, fun h => by simp [mergeTables] at h⟩
  | cons kv rest ih =>
    intro tabs hnd
    unfold mergeTables
    cases ht : alookup kv.1 tabs with
    | some t =>
      dsimp only
      have hlen := mergeColumnsF_length kv.2.columns t.columns
      have hcells := tabSet_cells tabs kv.1 t
        { t with columns := (mergeColumnsF t.columns kv.2.columns).1 } hnd ht
      dsimp only at hcells
      have hnd' : ((tabSet tabs kv.1
          { t with columns := (mergeColumnsF t.columns kv.2.columns).1 }).map
            Prod.fst).Nodup := by
        rw [tabSet_keys]; exact hnd
      have hrest := ih _ hnd'
      rw [Bool.or_eq_true]
      constructor
      · refine Nat.le_trans ?_ hrest.1
        omega
      · intro hor
        rcases hor with h1 | h1
        · have := hlen.2 h1
          refine Nat.lt_of_lt_of_le ?_ hrest.1
          omega
        · have := hrest.2 h1
          omega
    | none =>
      dsimp only
      have hnd' := nodup_keys_append tabs kv hnd ht
      have hrest := ih (tabs ++ [kv]) hnd'
      have happ := tabCells_append tabs kv
      exact ⟨by omega, fun _ => by omega⟩

end DltSpec

namespace DltSpec

/-- C4: schema merge is idempotent and version-stable — applying the same
worker delta a second time leaves the schema's version and table/column
contents unchanged, and the version increments exactly when a column or
table is actually added (version unchanged iff contents unchanged). -/
theorem schema_merge_idempotent (s : Schema) (d : SchemaDelta)
    (hwf : (s.tables.map Prod.fst).Nodup) :
    mergeSchema (mergeSchema s d) d = mergeSchema s d ∧
    ((mergeSchema s d).version = s.version ↔ (mergeSchema s d).tables = s.tables) := by
  have hnd' := mergeTables_nodup d s.tables hwf
  have hpre : ∀ kv ∈ d, ∃ t, alookup kv.1 (mergeTables s.tables d).1 = some t ∧
      ∀ cv ∈ kv.2.columns, (alookup cv.1 t.columns).isSome := by
    intro kv hkv
    obtain ⟨hkey, hcols⟩ := mergeTables_delta_present d s.tables kv hkv
    rw [Option.isSome_iff_exists] at hkey
    obtain ⟨t, ht⟩ := hkey
    refine ⟨t, ht, ?_⟩
    intro cv hcv
    obtain ⟨t', ht', hc⟩ := hcols cv hcv
    rwa [Option.some.inj (ht'.symm.trans ht)] at hc
  have h2 : mergeTables (mergeTables s.tables d).1 d =
      ((mergeTables s.tables d).1, false) :=
    mergeTables_noop d _ hnd' hpre
  constructor
  · simp only [mergeSchema]
    rw [h2]
    simp
  · cases hflag : (mergeTables s.tables d).2 with
    | false =>
      have h1 := mergeTables_flag_false d s.tables hwf hflag
      simp only [mergeSchema, hflag, if_neg]
      rw [h1]
      simp
    | true =>
      have hlt := (mergeTables_cells d s.tables hwf).2 hflag
      simp only [mergeSchema, hflag, if_pos]
      constructor
      · intro hv
        exact absurd hv (Nat.succ_ne_self s.version)
      · intro ht
        exact absurd (congrArg tabCells ht)
          (Nat.ne_of_gt hlt)

end DltSpec

namespace DltSpec

/-- The `evolution` schema of `test_schema_changes` after the first load. -/
def exSchema : Schema :=
  ⟨"evolution".toList, 1,
    [("doc".toList,
      ⟨"doc".toList, none,
        [("str".toList, ⟨"str".toList, DType.text, true, false⟩),
         ("int".toList, ⟨"int".toList, DType.bigint, true, false⟩)]⟩)]⟩

/-- A worker delta of the third load of `test_schema_changes`: the `doc`
table gains `bool` and `int__v_text`, and the child table `doc__comp`
appears. -/
def exDelta : SchemaDelta :=
  [("doc".toList,
    ⟨"doc".toList, none,
      [("bool".toList, ⟨"bool".toList, DType.bool, true, false⟩),
       ("int__v_text".toList, ⟨"int__v_text".toList, DType.text, true, true⟩)]⟩),
   ("doc__comp".toList,
    ⟨"doc__comp".toList, some "doc".toList,
      [("str".toList, ⟨"str".toList, DType.text, true, false⟩)]⟩)]

/-- C4 witness: idempotence and version stability instantiated on the
`test_schema_changes` delta. -/
theorem schema_merge_idempotent_witness :
    (exSchema.tables.map Prod.fst).Nodup ∧
    (mergeSchema (mergeSchema exSchema exDelta) exDelta =
        mergeSchema exSchema exDelta ∧
      ((mergeSchema exSchema exDelta).version = exSchema.version ↔
        (mergeSchema exSchema exDelta).tables = exSchema.tables)) :=
  ⟨by decide, schema_merge_idempotent exSchema exDelta (by decide)⟩

end DltSpec

namespace DltSpec

/-! ## Item Flattener naming (spec §4.2, separator escaping) -/

/-- The separator character of the naming convention. -/
def sepChar : Char := '_'

/-- The two-character path separator (`__`). -/
def pathSep : Name := ['_', '_']

/-- Run-length encoding of a name into maximal runs. -/
def rle : List Char → List (Char × Nat)
  | [] => []
  | c :: rest =>
    match rle rest with
    | [] => [(c, 1)]
    | (d, n) :: t => if c = d then (c, n + 1) :: t else (c, 1) :: (d, n) :: t

def unrle : List (Char × Nat) → List Char
  | [] => []
  | g :: t => List.replicate g.2 g.1 ++ unrle t

/-- Escaping of one run: a run of the separator character is doubled when
it is boundary-adjacent or contains the separator sequence (length ≥ 2);
every other run is kept. -/
def escGroup (bdry : Bool) (g : Char × Nat) : Char × Nat :=
  if g.1 = sepChar ∧ (bdry = true ∨ 2 ≤ g.2) then (g.1, 2 * g.2) else g

/-- Walk the runs, marking the first and last as boundary-adjacent. -/
def escRuns : Bool → List (Char × Nat) → List (Char × Nat)
  | _, [] => []
  | _, [g] => [escGroup true g]
  | first, g :: h :: t => escGroup first g :: escRuns false (h :: t)

/-- Modelled from the spec: the escaping of a field's own name before
path-joining (spec §4.2: runs containing the separator sequence, or
boundary-adjacent runs of the separator character, are escaped by
doubling the separator character; the flattener module is not under
src/). -/
def escape (s : Name) : Name := unrle (escRuns true (rle s))

/-- Path joining: escaped segments joined with the two-character
separator (a path `a.b` becomes column name `a__b`). -/
def joinPath (segs : List Name) : Name :=
  List.intercalate pathSep (segs.map escape)

/-- Whether the name contains two adjacent separator characters. -/
def hasDouble : List Char → Bool
  | x :: y :: rest =>
    (decide (x = sepChar) && decide (y = sepChar)) || hasDouble (y :: rest)
  | _ => false

/-- Whether the name contains three adjacent separator characters. -/
def hasTriple : List Char → Bool
  | x :: y :: z :: rest =>
    (decide (x = sepChar) && decide (y = sepChar) && decide (z = sepChar)) ||
      hasTriple (y :: z :: rest)
  | _ => false

/-- A plain field name: non-empty, no separator character at either
boundary, no separator sequence inside — escaping does not fire on it. -/
def plain (s : Name) : Prop :=
  s ≠ [] ∧ s.head? ≠ some sepChar ∧ s.getLast? ≠ some sepChar ∧ hasDouble s = false

instance (s : Name) : Decidable (plain s) := by
  unfold plain
  infer_instance

/-- The escaping of spec §4.2 fires on the name: it contains the
separator sequence or a boundary-adjacent run of the separator
character. -/
def escapeFires (s : Name) : Prop :=
  s.head? = some sepChar ∨ s.getLast? = some sepChar ∨ hasDouble s = true

instance (s : Name) : Decidable (escapeFires s) := by
  unfold escapeFires
  infer_instance

end DltSpec

namespace DltSpec

theorem rle_pos : ∀ s : List Char, ∀ g ∈ rle s, 1 ≤ g.2 := by
  intro s
  induction s with
  | nil => intro g h; exact absurd h (by simp [rle])
  | cons c rest ih =>
    intro g hg
    unfold rle at hg
    cases hr : rle rest with
    | nil =>
      rw [hr] at hg
      dsimp only at hg
      rcases List.mem_singleton.1 hg with h
      rw [h]
    | cons d t =>
      obtain ⟨d1, d2⟩ := d
      rw [hr] at hg
      dsimp only at hg
      by_cases hc : c = d1
      · rw [if_pos hc] at hg
        rcases List.mem_cons.1 hg with h | h
        · rw [h]; dsimp only; omega
        · exact ih g (hr ▸ List.mem_cons_of_mem _ h)
      · rw [if_neg hc] at hg
        rcases List.mem_cons.1 hg with h | h
        · rw [h]
        · exact ih g (hr ▸ h)

theorem unrle_rle : ∀ s : List Char, unrle (rle s) = s := by
  intro s
  induction s with
  | nil => rfl
  | cons c rest ih =>
    unfold rle
    cases hr : rle rest with
    | nil =>
      rw [hr] at ih
      dsimp only
      unfold unrle at ih ⊢
      rw [← ih]
      rfl
    | cons d t =>
      obtain ⟨d1, d2⟩ := d
      rw [hr] at ih
      dsimp only
      by_cases hc : c = d1
      · rw [if_pos hc]
        unfold unrle at ih ⊢
        dsimp only at ih ⊢
        rw [List.replicate_succ, List.cons_append, hc, ih]
      · rw [if_neg hc]
        unfold unrle
        rw [ih]
        rfl

theorem escRuns_chars : ∀ (b : Bool) (gs : List (Char × Nat)),
    (escRuns b gs).map Prod.fst = gs.map Prod.fst := by
  intro b gs
  induction gs generalizing b with
  | nil => rfl
  | cons g t ih =>
    cases t with
    | nil =>
      unfold escRuns escGroup
      by_cases h : g.1 = sepChar ∧ (true = true ∨ 2 ≤ g.2)
      · rw [if_pos h]
        simp
      · rw [if_neg h]
    | cons h2 t2 =>
      unfold escRuns
      rw [List.map_cons, List.map_cons, ih false]
      congr 1
      unfold escGroup
      by_cases h : g.1 = sepChar ∧ (b = true ∨ 2 ≤ g.2)
      · rw [if_pos h]
      · rw [if_neg h]

theorem escRuns_pos : ∀ (b : Bool) (gs : List (Char × Nat)),
    (∀ g ∈ gs, 1 ≤ g.2) → ∀ g ∈ escRuns b gs, 1 ≤ g.2 := by
  intro b gs
  induction gs generalizing b with
  | nil => intro _ g hg; exact absurd hg (by simp [escRuns])
  | cons g0 t ih =>
    intro hpos g hg
    cases t with
    | nil =>
      unfold escRuns at hg
      rcases List.mem_singleton.1 hg with h
      rw [h]
      unfold escGroup
      have h0 := hpos g0 (List.mem_cons_self _ _)
      by_cases hc : g0.1 = sepChar ∧ (true = true ∨ 2 ≤ g0.2)
      · rw [if_pos hc]; dsimp only; omega
      · rw [if_neg hc]; omega
    | cons h2 t2 =>
      unfold escRuns at hg
      rcases List.mem_cons.1 hg with h | h
      · rw [h]
        unfold escGroup
        have h0 := hpos g0 (List.mem_cons_self _ _)
        by_cases hc : g0.1 = sepChar ∧ (b = true ∨ 2 ≤ g0.2)
        · rw [if_pos hc]; dsimp only; omega
        · rw [if_neg hc]; omega
      · exact ih false (fun q hq => hpos q (List.mem_cons_of_mem _ hq)) g h

end DltSpec

namespace DltSpec

theorem unrle_head (gs : List (Char × Nat)) (hpos : ∀ g ∈ gs, 1 ≤ g.2) :
    (unrle gs).head? = (gs.head?).map Prod.fst := by
  cases gs with
  | nil => rfl
  | cons g t =>
    obtain ⟨c, n⟩ := g
    have h1 : 1 ≤ n := hpos (c, n) (List.mem_cons_self _ _)
    unfold unrle
    obtain ⟨m, rfl⟩ : ∃ m, n = m + 1 := ⟨n - 1, by omega⟩
    rw [List.replicate_succ, List.cons_append]
    rfl

theorem unrle_ne_nil (gs : List (Char × Nat)) (hpos : ∀ g ∈ gs, 1 ≤ g.2)
    (hne : gs ≠ []) : unrle gs ≠ [] := by
  cases gs with
  | nil => exact absurd rfl hne
  | cons g t =>
    obtain ⟨c, n⟩ := g
    have h1 : 1 ≤ n := hpos (c, n) (List.mem_cons_self _ _)
    unfold unrle
    obtain ⟨m, rfl⟩ : ∃ m, n = m + 1 := ⟨n - 1, by omega⟩
    rw [List.replicate_succ, List.cons_append]
    exact List.cons_ne_nil _ _

theorem getLast?_replicate_succ (c : Char) (m : Nat) :
    (List.replicate (m + 1) c).getLast? = some c := by
  rw [List.replicate_succ']
  exact List.getLast?_concat _

theorem unrle_getLast : ∀ gs : List (Char × Nat), (∀ g ∈ gs, 1 ≤ g.2) →
    (unrle gs).getLast? = (gs.getLast?).map Prod.fst := by
  intro gs
  induction gs with
  | nil => intro _; rfl
  | cons g t ih =>
    intro hpos
    cases ht : t with
    | nil =>
      subst ht
      obtain ⟨c, n⟩ := g
      have h1 : 1 ≤ n := hpos (c, n) (List.mem_cons_self _ _)
      obtain ⟨m, rfl⟩ : ∃ m, n = m + 1 := ⟨n - 1, by omega⟩
      simp only [unrle, List.append_nil]
      rw [getLast?_replicate_succ c m]
      rfl
    | cons g2 t2 =>
      subst ht
      unfold unrle
      have htpos : ∀ q ∈ g2 :: t2, 1 ≤ q.2 :=
        fun q hq => hpos q (List.mem_cons_of_mem _ hq)
      have htne : unrle (g2 :: t2) ≠ [] :=
        unrle_ne_nil _ htpos (List.cons_ne_nil _ _)
      rw [List.getLast?_append_of_ne_nil _ htne, ih htpos]
      rfl

theorem escape_head (s : Name) : (escape s).head? = s.head? := by
  unfold escape
  rw [unrle_head _ (escRuns_pos true (rle s) (rle_pos s))]
  have h1 : ((escRuns true (rle s)).head?).map Prod.fst =
      ((rle s).head?).map Prod.fst := by
    rw [← List.head?_map, ← List.head?_map, escRuns_chars]
  rw [h1, ← unrle_head _ (rle_pos s), unrle_rle]

theorem escape_getLast (s : Name) : (escape s).getLast? = s.getLast? := by
  unfold escape
  rw [unrle_getLast _ (escRuns_pos true (rle s) (rle_pos s))]
  have h1 : ((escRuns true (rle s)).getLast?).map Prod.fst =
      ((rle s).getLast?).map Prod.fst := by
    rw [← List.getLast?_map, ← List.getLast?_map, escRuns_chars]
  rw [h1, ← unrle_getLast _ (rle_pos s), unrle_rle]

end DltSpec

namespace DltSpec

theorem rle_cons_head (c : Char) (rest : List Char) :
    ∃ m t, rle (c :: rest) = (c, m) :: t ∧ 1 ≤ m := by
  unfold rle
  cases hr : rle rest with
  | nil => exact ⟨1, [], rfl, Nat.le_refl 1⟩
  | cons d t0 =>
    obtain ⟨d1, d2⟩ := d
    dsimp only
    by_cases hc : c = d1
    · exact ⟨d2 + 1, t0, by rw [if_pos hc], by omega⟩
    · exact ⟨1, (d1, d2) :: t0, by rw [if_neg hc], Nat.le_refl 1⟩

theorem hasDouble_rle : ∀ s : List Char, hasDouble s = true →
    ∃ n, 2 ≤ n ∧ (sepChar, n) ∈ rle s := by
  intro s
  induction s with
  | nil => intro h; exact absurd h (by simp [hasDouble])
  | cons x rest ih =>
    intro h
    cases hre : rest with
    | nil => rw [hre] at h; exact absurd h (by simp [hasDouble])
    | cons y r2 =>
      subst hre
      unfold hasDouble at h
      rw [Bool.or_eq_true, Bool.and_eq_true] at h
      rcases h with ⟨hx, hy⟩ | h
      · rw [decide_eq_true_eq] at hx hy
        obtain ⟨m, t0, hrt, hm⟩ := rle_cons_head y r2
        unfold rle
        rw [hrt]
        dsimp only
        have hxy : x = y := by rw [hx, hy]
        rw [if_pos hxy]
        refine ⟨m + 1, by omega, ?_⟩
        rw [hx]
        exact List.mem_cons_self _ _
      · obtain ⟨n, hn, hmem⟩ := ih h
        unfold rle
        cases hr : rle (y :: r2) with
        | nil => exact absurd (hr ▸ hmem) (by simp)
        | cons d t0 =>
          obtain ⟨d1, d2⟩ := d
          dsimp only
          by_cases hc : x = d1
          · rw [if_pos hc]
            rcases List.mem_cons.1 (hr ▸ hmem) with he | ht
            · cases he
              refine ⟨n + 1, by omega, ?_⟩
              rw [hc]
              exact List.mem_cons_self _ _
            · exact ⟨n, hn, List.mem_cons_of_mem _ ht⟩
          · rw [if_neg hc]
            exact ⟨n, hn, List.mem_cons_of_mem _ (hr ▸ hmem)⟩

theorem escRuns_mem_double : ∀ (b : Bool) (gs : List (Char × Nat)) (n : Nat),
    2 ≤ n → (sepChar, n) ∈ gs → (sepChar, 2 * n) ∈ escRuns b gs := by
  intro b gs
  induction gs generalizing b with
  | nil => intro n _ h; exact absurd h (by simp)
  | cons g t ih =>
    intro n hn hmem
    cases t with
    | nil =>
      rcases List.mem_singleton.1 hmem with h
      subst h
      unfold escRuns escGroup
      rw [if_pos ⟨rfl, Or.inr hn⟩]
      exact List.mem_singleton.2 rfl
    | cons h2 t2 =>
      unfold escRuns
      rcases List.mem_cons.1 hmem with he | ht
      · subst he
        unfold escGroup
        rw [if_pos ⟨rfl, Or.inr hn⟩]
        exact List.mem_cons_self _ _
      · exact List.mem_cons_of_mem _ (ih false n hn ht)

theorem replicate_infix_unrle : ∀ gs : List (Char × Nat), ∀ g ∈ gs,
    List.IsInfix (List.replicate g.2 g.1) (unrle gs) := by
  intro gs
  induction gs with
  | nil => intro g h; exact absurd h (by simp)
  | cons g0 t ih =>
    intro g hg
    unfold unrle
    rcases List.mem_cons.1 hg with he | ht
    · subst he
      exact ⟨[], unrle t, by rw [List.nil_append]⟩
    · obtain ⟨u, v, huv⟩ := ih g ht
      exact ⟨List.replicate g0.2 g0.1 ++ u, v, by
        rw [List.append_assoc, List.append_assoc, ← List.append_assoc u, huv]⟩

theorem replicate_infix_replicate (c : Char) (m k : Nat) (h : m ≤ k) :
    List.IsInfix (List.replicate m c) (List.replicate k c) := by
  refine ⟨[], List.replicate (k - m) c, ?_⟩
  rw [List.nil_append, ← List.replicate_add]
  congr 1
  omega

end DltSpec

namespace DltSpec

theorem hasTriple_cons_of (a : Char) (w : List Char)
    (h : hasTriple w = true) : hasTriple (a :: w) = true := by
  cases w with
  | nil => exact absurd h (by simp [hasTriple])
  | cons w1 r1 =>
    cases r1 with
    | nil => exact absurd h (by simp [hasTriple])
    | cons w2 r2 =>
      cases r2 with
      | nil => exact absurd h (by simp [hasTriple])
      | cons w3 r3 =>
        unfold hasTriple
        rw [Bool.or_eq_true]
        exact Or.inr h

theorem hasDouble_cons_of (a : Char) (w : List Char)
    (h : hasDouble w = true) : hasDouble (a :: w) = true := by
  cases w with
  | nil => exact absurd h (by simp [hasDouble])
  | cons w1 r1 =>
    cases r1 with
    | nil => exact absurd h (by simp [hasDouble])
    | cons w2 r2 =>
      unfold hasDouble
      rw [Bool.or_eq_true]
      exact Or.inr h

theorem hasTriple_of_infix (l : List Char)
    (h : List.IsInfix [sepChar, sepChar, sepChar] l) : hasTriple l = true := by
  obtain ⟨u, v, huv⟩ := h
  subst huv
  induction u with
  | nil =>
    unfold hasTriple
    simp
  | cons a u' ihu =>
    rw [List.cons_append]
    exact hasTriple_cons_of a _ ihu

theorem hasDouble_of_infix (l : List Char)
    (h : List.IsInfix [sepChar, sepChar] l) : hasDouble l = true := by
  obtain ⟨u, v, huv⟩ := h
  subst huv
  induction u with
  | nil =>
    unfold hasDouble
    simp
  | cons a u' ihu =>
    rw [List.cons_append]
    exact hasDouble_cons_of a _ ihu

/-- A name containing the separator sequence escapes to one containing a
triple separator run. -/
theorem hasTriple_escape (s : Name) (h : hasDouble s = true) :
    hasTriple (escape s) = true := by
  obtain ⟨n, hn, hmem⟩ := hasDouble_rle s h
  have h2 : (sepChar, 2 * n) ∈ escRuns true (rle s) :=
    escRuns_mem_double true (rle s) n hn hmem
  have h3 : List.IsInfix (List.replicate (2 * n) sepChar) (escape s) :=
    replicate_infix_unrle (escRuns true (rle s)) (sepChar, 2 * n) h2
  have h4 : List.IsInfix [sepChar, sepChar, sepChar]
      (List.replicate (2 * n) sepChar) := by
    have : [sepChar, sepChar, sepChar] = List.replicate 3 sepChar := rfl
    rw [this]
    exact replicate_infix_replicate sepChar 3 (2 * n) (by omega)
  exact hasTriple_of_infix (escape s) (h4.trans h3)

/-- A name holding a separator run of length at least two has a double. -/
theorem hasDouble_of_rle_double (s : Name) (n : Nat) (hn : 2 ≤ n)
    (hmem : (sepChar, n) ∈ rle s) : hasDouble s = true := by
  have h1 : List.IsInfix (List.replicate n sepChar) s := by
    have := replicate_infix_unrle (rle s) (sepChar, n) hmem
    rwa [unrle_rle] at this
  have h2 : List.IsInfix [sepChar, sepChar] (List.replicate n sepChar) := by
    have ha : [sepChar, sepChar] = List.replicate 2 sepChar := rfl
    rw [ha]
    exact replicate_infix_replicate sepChar 2 n hn
  exact hasDouble_of_infix s (h2.trans h1)

end DltSpec

namespace DltSpec

theorem escRuns_id : ∀ (gs : List (Char × Nat)) (b : Bool),
    (∀ g ∈ gs, g.1 = sepChar → g.2 ≤ 1) →
    (b = true → (gs.head?).map Prod.fst ≠ some sepChar) →
    ((gs.getLast?).map Prod.fst ≠ some sepChar) →
    escRuns b gs = gs := by
  intro gs
  induction gs with
  | nil => intro b _ _ _; rfl
  | cons g t ih =>
    intro b hruns hhead hlast
    cases t with
    | nil =>
      unfold escRuns escGroup
      rw [if_neg]
      intro ⟨hc, _⟩
      refine hlast ?_
      show some g.1 = some sepChar
      rw [hc]
    | cons h2 t2 =>
      unfold escRuns
      have hg : escGroup b g = g := by
        unfold escGroup
        rw [if_neg]
        intro ⟨hc, hor⟩
        rcases hor with hb | hn
        · refine hhead hb ?_
          show some g.1 = some sepChar
          rw [hc]
        · have := hruns g (List.mem_cons_self _ _) hc
          omega
      rw [hg, ih false
        (fun q hq => hruns q (List.mem_cons_of_mem _ hq))
        (fun hf => absurd hf (by simp))
        hlast]

/-- Escaping is the identity on plain names. -/
theorem escape_plain (s : Name) (hp : plain s) : escape s = s := by
  obtain ⟨hne, hhead, hlast, hdouble⟩ := hp
  unfold escape
  rw [escRuns_id (rle s) true ?h1 ?h2 ?h3]
  · exact unrle_rle s
  case h1 =>
    intro g hg hc
    by_contra hgt
    have h2 : 2 ≤ g.2 := by omega
    have : hasDouble s = true := by
      refine hasDouble_of_rle_double s g.2 h2 ?_
      have : g = (sepChar, g.2) := by
        obtain ⟨g1, g2⟩ := g
        rw [← hc]
      rwa [← this]
    rw [this] at hdouble
    exact absurd hdouble (by simp)
  case h2 =>
    intro _
    have h1 : ((rle s).head?).map Prod.fst = s.head? := by
      rw [← unrle_head (rle s) (rle_pos s), unrle_rle]
    rw [h1]
    exact hhead
  case h3 =>
    have h1 : ((rle s).getLast?).map Prod.fst = s.getLast? := by
      rw [← unrle_getLast (rle s) (rle_pos s), unrle_rle]
    rw [h1]
    exact hlast

theorem hasDouble_of_triple : ∀ l : List Char,
    hasTriple l = true → hasDouble l = true := by
  intro l
  induction l with
  | nil => intro h; exact absurd h (by simp [hasTriple])
  | cons x r ih =>
    intro h
    cases r with
    | nil => exact absurd h (by simp [hasTriple])
    | cons y r2 =>
      cases r2 with
      | nil => exact absurd h (by simp [hasTriple])
      | cons z r3 =>
        unfold hasTriple at h
        rw [Bool.or_eq_true] at h
        unfold hasDouble
        rw [Bool.or_eq_true]
        rcases h with h | h
        · rw [Bool.and_eq_true, Bool.and_eq_true] at h
          exact Or.inl (by rw [Bool.and_eq_true]; exact h.1)
        · exact Or.inr (ih h)

end DltSpec

namespace DltSpec

theorem hasTriple_false_of_double_false (l : List Char)
    (h : hasDouble l = false) : hasTriple l = false := by
  cases ht : hasTriple l with
  | false => rfl
  | true =>
    rw [hasDouble_of_triple l ht] at h
    exact absurd h (by simp)

theorem triple_sep_sep_head (bb : Name) (hb1 : bb ≠ [])
    (hb2 : bb.head? ≠ some sepChar) (hb3 : hasDouble bb = false) :
    hasTriple (sepChar :: sepChar :: bb) = false := by
  cases bb with
  | nil => exact absurd rfl hb1
  | cons y r =>
    have hy : y ≠ sepChar := fun he => hb2 (by rw [he]; rfl)
    unfold hasTriple
    rw [Bool.or_eq_false_iff]
    constructor
    · simp [decide_eq_false hy]
    · refine hasTriple_false_of_double_false _ ?_
      unfold hasDouble
      rw [Bool.or_eq_false_iff]
      exact ⟨by simp [decide_eq_false hy], hb3⟩

theorem noTriple_append (bb : Name) (hb1 : bb ≠ [])
    (hb2 : bb.head? ≠ some sepChar) (hb3 : hasDouble bb = false) :
    ∀ a : Name, a ≠ [] → a.getLast? ≠ some sepChar → hasDouble a = false →
      hasTriple (a ++ sepChar :: sepChar :: bb) = false := by
  intro a
  induction a with
  | nil => intro h _ _; exact absurd rfl h
  | cons x a' ih =>
    intro _ ha2 ha3
    cases ha' : a' with
    | nil =>
      subst ha'
      have hx : x ≠ sepChar := fun he => ha2 (by rw [he]; rfl)
      rw [List.cons_append, List.nil_append]
      unfold hasTriple
      rw [Bool.or_eq_false_iff]
      exact ⟨by simp [decide_eq_false hx],
        triple_sep_sep_head bb hb1 hb2 hb3⟩
    | cons z a'' =>
      subst ha'
      have hxz : ¬(x = sepChar ∧ z = sepChar) := by
        intro ⟨h1, h2⟩
        have hd : hasDouble (x :: z :: a'') = true := by
          unfold hasDouble
          rw [Bool.or_eq_true]
          exact Or.inl (by
            rw [Bool.and_eq_true, decide_eq_true_eq, decide_eq_true_eq]
            exact ⟨h1, h2⟩)
        rw [hd] at ha3
        exact absurd ha3 (by simp)
      have ha3' : hasDouble (z :: a'') = false := by
        unfold hasDouble at ha3
        rw [Bool.or_eq_false_iff] at ha3
        exact ha3.2
      have ha2' : (z :: a'').getLast? ≠ some sepChar := ha2
      have ih' := ih (List.cons_ne_nil _ _) ha2' ha3'
      have hfirst : (decide (x = sepChar) && decide (z = sepChar) &&
          decide (sepChar = sepChar)) = false ∧
          ∀ w : Char, (decide (x = sepChar) && decide (z = sepChar) &&
            decide (w = sepChar)) = false := by
        constructor <;>
          [skip; intro w] <;>
          · by_cases hx : x = sepChar
            · have hz : z ≠ sepChar := fun h2 => hxz ⟨hx, h2⟩
              simp [decide_eq_false hz]
            · simp [decide_eq_false hx]
      cases ha'' : a'' with
      | nil =>
        subst ha''
        rw [List.cons_append, List.cons_append, List.nil_append]
        unfold hasTriple
        rw [Bool.or_eq_false_iff]
        refine ⟨hfirst.1, ?_⟩
        have h2 := ih'
        rw [List.cons_append, List.nil_append] at h2
        exact h2
      | cons w r =>
        subst ha''
        rw [List.cons_append, List.cons_append, List.cons_append]
        unfold hasTriple
        rw [Bool.or_eq_false_iff]
        refine ⟨hfirst.2 w, ?_⟩
        have h2 := ih'
        rw [List.cons_append, List.cons_append] at h2
        exact h2

end DltSpec

namespace DltSpec

theorem joinPath_pair (x y : Name) :
    joinPath [x, y] = escape x ++ pathSep ++ escape y := by
  simp [joinPath, List.intercalate, List.intersperse]

/-- C6 counterexample: under the spec's doubling-based escaping, the
top-level field literally named `a__b` (escaped to `a____b`) collides
with the path-joined column name of the distinct nested fields `a_` and
`b` (`a_` has a boundary-adjacent separator run, so it escapes to `a__`,
and joining appends `__` and `b`, giving `a____b` as well). -/
theorem separator_escaping_counterexample :
    escapeFires "a__b".toList ∧
    escape "a__b".toList = joinPath ["a_".toList, "b".toList] ∧
    "a__b".toList ≠ "a_".toList ∧ "a__b".toList ≠ "b".toList := by
  refine ⟨by decide, by decide, by decide, by decide⟩

/-- C6 (amended): a nested path `a.b` of plain field names (no separator
sequence inside and no boundary-adjacent separator character — names on
which escaping does not fire) produces column name `a__b`, and a field
whose own name needs escaping never collides with the path-joined name
of two plain nested fields.  (For nested fields that themselves need
escaping the guarantee fails, see the counterexample.) -/
theorem separator_escaping (s a b : Name) (ha : plain a) (hb : plain b)
    (hs : escapeFires s) :
    joinPath [a, b] = a ++ pathSep ++ b ∧
    escape s ≠ joinPath [a, b] := by
  have hj : joinPath [a, b] = a ++ pathSep ++ b := by
    rw [joinPath_pair, escape_plain a ha, escape_plain b hb]
  refine ⟨hj, ?_⟩
  rw [hj]
  obtain ⟨ha1, ha2, ha3, ha4⟩ := ha
  obtain ⟨hb1, hb2, hb3, hb4⟩ := hb
  have hsep : a ++ pathSep ++ b = a ++ sepChar :: sepChar :: b := by
    rw [List.append_assoc]
    rfl
  rcases hs with h | h | h
  · -- the escaped name starts with the separator, the join does not
    intro he
    have h1 : (escape s).head? = some sepChar := by rw [escape_head, h]
    rw [he, hsep] at h1
    cases a with
    | nil => exact absurd rfl ha1
    | cons x r =>
      rw [List.cons_append] at h1
      exact ha2 (by rw [← h1]; rfl)
  · -- the escaped name ends with the separator, the join does not
    intro he
    have h1 : (escape s).getLast? = some sepChar := by rw [escape_getLast, h]
    rw [he, hsep] at h1
    rw [List.getLast?_append_of_ne_nil _ (List.cons_ne_nil _ _),
      List.getLast?_cons_cons] at h1
    cases b with
    | nil => exact absurd rfl hb1
    | cons y r =>
      rw [List.getLast?_cons_cons] at h1
      exact hb3 h1
  · -- the escaped name contains a triple separator run, the join cannot
    intro he
    have h1 : hasTriple (escape s) = true := hasTriple_escape s h
    have h2 : hasTriple (a ++ sepChar :: sepChar :: b) = false :=
      noTriple_append b hb1 hb2 hb4 a ha1 ha3 ha4
    rw [he, hsep, h2] at h1
    exact absurd h1 (by simp)

/-- C6 witness: the plain nested path `x.y` yields `x__y`, and the
escaped literal name `a__b` differs from it. -/
theorem separator_escaping_witness :
    (plain "x".toList ∧ plain "y".toList ∧ escapeFires "a__b".toList) ∧
    (joinPath ["x".toList, "y".toList] = "x".toList ++ pathSep ++ "y".toList ∧
      escape "a__b".toList ≠ joinPath ["x".toList, "y".toList]) ∧
    "x".toList ++ pathSep ++ "y".toList = "x__y".toList :=
  ⟨⟨by decide, by decide, by decide⟩,
    separator_escaping "a__b".toList "x".toList "y".toList
      (by decide) (by decide) (by decide),
    by decide⟩

end DltSpec

namespace DltSpec

/-! ## Item Flattener (spec §4.2) -/

/-- A scalar cell value in an emitted row. -/
inductive Scalar where
  | s (v : List Char)
  | i (v : Int)
  | b (v : Bool)
deriving DecidableEq

/-- An emitted row (spec §3, "Row"): root rows carry `_dlt_id` and
`_dlt_load_id`; child rows additionally carry `_dlt_parent_id` and
`_dlt_list_idx` and no load id. -/
structure Row where
  table : Name
  dltId : Nat
  parentId : Option Nat
  listIdx : Option Nat
  loadId : Option Name
  cols : List (Name × Scalar)
deriving DecidableEq

/-- The child table of an array field at `path` under `table`
(spec §4.1/4.2: a child table named `<current_table>__<field>`). -/
def childTableName (table : Name) (path : List Name) : Name :=
  table ++ pathSep ++ joinPath path

/-- The column name used for scalar array elements. -/
def valueName : Name := "value".toList

/-- The rows, discovered (table, parent) delta entries, and next fresh id
produced by flattening. -/
structure RowsOut where
  rows : List Row
  delta : List (Name × Option Name)
  ctr : Nat

/-- Like `RowsOut` with the columns of the row under construction. -/
structure FieldsOut where
  cols : List (Name × Scalar)
  rows : List Row
  delta : List (Name × Option Name)
  ctr : Nat

/-- Whether a value is an array. -/
def isArr : JVal → Bool
  | .arr _ => true
  | _ => false

mutual

/-- Modelled from the spec: flattening one value as its own row
(spec §4.2; the flattener module of the repository is not under src/).
Every row receives a fresh `_dlt_id` (the counter); objects flatten
field by field, scalar array elements become a `value` column, and a
nested array becomes a child table of the row. -/
def flattenRow (table : Name) (parentId : Option Nat) (listIdx : Option Nat)
    (loadId : Option Name) (v : JVal) (ctr : Nat) : RowsOut :=
  match v with
  | .obj fs =>
      let fo := flattenFields table ctr [] fs (ctr + 1)
      ⟨⟨table, ctr, parentId, listIdx, loadId, fo.cols⟩ :: fo.rows, fo.delta, fo.ctr⟩
  | .str x =>
      ⟨[⟨table, ctr, parentId, listIdx, loadId, [(valueName, .s x)]⟩], [], ctr + 1⟩
  | .int x =>
      ⟨[⟨table, ctr, parentId, listIdx, loadId, [(valueName, .i x)]⟩], [], ctr + 1⟩
  | .bool x =>
      ⟨[⟨table, ctr, parentId, listIdx, loadId, [(valueName, .b x)]⟩], [], ctr + 1⟩
  | .arr xs =>
      let eo := flattenElems (childTableName table [valueName]) ctr xs 0 (ctr + 1)
      ⟨⟨table, ctr, parentId, listIdx, loadId, []⟩ :: eo.rows,
        (childTableName table [valueName], some table) :: eo.delta, eo.ctr⟩

/-- Modelled from the spec: the depth-first walk of an object's fields
(spec §4.2).  Scalars become columns named by the escaped, path-joined
field path; nested objects recurse with the extended path (no new
tables); arrays create a child table and one row per element. -/
def flattenFields (table : Name) (rowId : Nat) (path : List Name)
    (fs : List (Name × JVal)) (ctr : Nat) : FieldsOut :=
  match fs with
  | [] => ⟨[], [], [], ctr⟩
  | (k, .str x) :: rest =>
      let fo := flattenFields table rowId path rest ctr
      ⟨(joinPath (path ++ [k]), .s x) :: fo.cols, fo.rows, fo.delta, fo.ctr⟩
  | (k, .int x) :: rest =>
      let fo := flattenFields table rowId path rest ctr
      ⟨(joinPath (path ++ [k]), .i x) :: fo.cols, fo.rows, fo.delta, fo.ctr⟩
  | (k, .bool x) :: rest =>
      let fo := flattenFields table rowId path rest ctr
      ⟨(joinPath (path ++ [k]), .b x) :: fo.cols, fo.rows, fo.delta, fo.ctr⟩
  | (k, .obj gs) :: rest =>
      let fo1 := flattenFields table rowId (path ++ [k]) gs ctr
      let fo2 := flattenFields table rowId path rest fo1.ctr
      ⟨fo1.cols ++ fo2.cols, fo1.rows ++ fo2.rows, fo1.delta ++ fo2.delta, fo2.ctr⟩
  | (k, .arr xs) :: rest =>
      let eo := flattenElems (childTableName table (path ++ [k])) rowId xs 0 ctr
      let fo := flattenFields table rowId path rest eo.ctr
      ⟨fo.cols, eo.rows ++ fo.rows,
        (childTableName table (path ++ [k]), some table) :: (eo.delta ++ fo.delta),
        fo.ctr⟩

/-- Modelled from the spec: array expansion (spec §4.2) — each element
becomes its own row in the child table, receiving `_dlt_parent_id` (the
enclosing row's id), `_dlt_list_idx` (its position) and no load id. -/
def flattenElems (ct : Name) (parent : Nat) (xs : List JVal) (idx : Nat)
    (ctr : Nat) : RowsOut :=
  match xs with
  | [] => ⟨[], [], ctr⟩
  | x :: rest =>
      let ro := flattenRow ct (some parent) (some idx) none x ctr
      let ro2 := flattenElems ct parent rest (idx + 1) ro.ctr
      ⟨ro.rows ++ ro2.rows, ro.delta ++ ro2.delta, ro2.ctr⟩

end

/-- Modelled from the spec: `flatten(schema_snapshot, table_hint,
document)` at the granularity of rows and schema delta (spec §4.2) —
the root row carries the batch's `_dlt_load_id`. -/
def flatten (table : Name) (loadId : Name) (doc : JVal) (ctr : Nat) : RowsOut :=
  flattenRow table none none (some loadId) doc ctr

end DltSpec

namespace DltSpec

theorem childTableName_length (table : Name) (path : List Name) :
    (childTableName table path).length = table.length + 2 + (joinPath path).length := by
  unfold childTableName
  rw [List.length_append, List.length_append]
  have h2 : pathSep.length = 2 := rfl
  omega

mutual

theorem flattenRow_inv (table : Name) (parentId : Option Nat)
    (listIdx : Option Nat) (loadId : Option Name) (v : JVal) (ctr : Nat) :
    ctr < (flattenRow table parentId listIdx loadId v ctr).ctr ∧
    (∀ r ∈ (flattenRow table parentId listIdx loadId v ctr).rows,
      ctr ≤ r.dltId ∧ r.dltId < (flattenRow table parentId listIdx loadId v ctr).ctr) ∧
    ((flattenRow table parentId listIdx loadId v ctr).rows.map Row.dltId).Nodup ∧
    (∃ cols rest, (flattenRow table parentId listIdx loadId v ctr).rows =
      ⟨table, ctr, parentId, listIdx, loadId, cols⟩ :: rest ∧
      ∀ r ∈ rest, table.length + 2 ≤ r.table.length) := by
  cases v with
  | obj fs =>
    have ih := flattenFields_inv table ctr [] fs (ctr + 1)
    unfold flattenRow
    dsimp only
    obtain ⟨ih1, ih2, ih3, ih4⟩ := ih
    refine ⟨by omega, ?_, ?_, ?_⟩
    · intro r hr
      rcases List.mem_cons.1 hr with he | ht
      · rw [he]
        dsimp only
        omega
      · have := ih2 r ht
        exact ⟨by omega, this.2⟩
    · rw [List.map_cons]
      refine List.nodup_cons.2 ⟨?_, ih3⟩
      intro hmem
      rw [List.mem_map] at hmem
      obtain ⟨r, hr, hid⟩ := hmem
      have := ih2 r hr
      dsimp only at hid
      omega
    · exact ⟨_, _, rfl, ih4⟩
  | str x =>
    unfold flattenRow
    dsimp only
    refine ⟨by omega, ?_, by simp, ⟨_, [], rfl, by simp⟩⟩
    intro r hr
    rcases List.mem_singleton.1 hr with he
    rw [he]
    dsimp only
    omega
  | int x =>
    unfold flattenRow
    dsimp only
    refine ⟨by omega, ?_, by simp, ⟨_, [], rfl, by simp⟩⟩
    intro r hr
    rcases List.mem_singleton.1 hr with he
    rw [he]
    dsimp only
    omega
  | bool x =>
    unfold flattenRow
    dsimp only
    refine ⟨by omega, ?_, by simp, ⟨_, [], rfl, by simp⟩⟩
    intro r hr
    rcases List.mem_singleton.1 hr with he
    rw [he]
    dsimp only
    omega
  | arr xs =>
    have ih := flattenElems_inv (childTableName table [valueName]) ctr xs 0 (ctr + 1)
    unfold flattenRow
    dsimp only
    obtain ⟨ih1, ih2, ih3, ih4⟩ := ih
    refine ⟨by omega, ?_, ?_, ?_⟩
    · intro r hr
      rcases List.mem_cons.1 hr with he | ht
      · rw [he]
        dsimp only
        omega
      · have := ih2 r ht
        exact ⟨by omega, this.2⟩
    · rw [List.map_cons]
      refine List.nodup_cons.2 ⟨?_, ih3⟩
      intro hmem
      rw [List.mem_map] at hmem
      obtain ⟨r, hr, hid⟩ := hmem
      have := ih2 r hr
      dsimp only at hid
      omega
    · refine ⟨_, _, rfl, ?_⟩
      intro r hr
      rcases ih4 r hr with he | hl
      · rw [he, childTableName_length]
        omega
      · rw [childTableName_length] at hl
        omega

theorem flattenFields_inv (table : Name) (rowId : Nat) (path : List Name)
    (fs : List (Name × JVal)) (ctr : Nat) :
    ctr ≤ (flattenFields table rowId path fs ctr).ctr ∧
    (∀ r ∈ (flattenFields table rowId path fs ctr).rows,
      ctr ≤ r.dltId ∧ r.dltId < (flattenFields table rowId path fs ctr).ctr) ∧
    ((flattenFields table rowId path fs ctr).rows.map Row.dltId).Nodup ∧
    (∀ r ∈ (flattenFields table rowId path fs ctr).rows,
      table.length + 2 ≤ r.table.length) := by
  match fs with
  | [] =>
    unfold flattenFields
    exact ⟨Nat.le_refl _, by simp, by simp, by simp⟩
  | (k, .str x) :: rest =>
    have ih := flattenFields_inv table rowId path rest ctr
    unfold flattenFields
    dsimp only
    exact ih
  | (k, .int x) :: rest =>
    have ih := flattenFields_inv table rowId path rest ctr
    unfold flattenFields
    dsimp only
    exact ih
  | (k, .bool x) :: rest =>
    have ih := flattenFields_inv table rowId path rest ctr
    unfold flattenFields
    dsimp only
    exact ih
  | (k, .obj gs) :: rest =>
    have ih1 := flattenFields_inv table rowId (path ++ [k]) gs ctr
    have ih2 := flattenFields_inv table rowId path rest
      (flattenFields table rowId (path ++ [k]) gs ctr).ctr
    unfold flattenFields
    dsimp only
    obtain ⟨a1, a2, a3, a4⟩ := ih1
    obtain ⟨b1, b2, b3, b4⟩ := ih2
    refine ⟨by omega, ?_, ?_, ?_⟩
    · intro r hr
      rcases List.mem_append.1 hr with h | h
      · have := a2 r h; exact ⟨this.1, by omega⟩
      · have := b2 r h; exact ⟨by omega, this.2⟩
    · rw [List.map_append]
      refine List.Nodup.append a3 b3 ?_
      intro x hx1 hx2
      rw [List.mem_map] at hx1 hx2
      obtain ⟨r1, hr1, hid1⟩ := hx1
      obtain ⟨r2, hr2, hid2⟩ := hx2
      have h1 := a2 r1 hr1
      have h2 := b2 r2 hr2
      omega
    · intro r hr
      rcases List.mem_append.1 hr with h | h
      · exact a4 r h
      · exact b4 r h
  | (k, .arr xs) :: rest =>
    have ih1 := flattenElems_inv (childTableName table (path ++ [k])) rowId xs 0 ctr
    have ih2 := flattenFields_inv table rowId path rest
      (flattenElems (childTableName table (path ++ [k])) rowId xs 0 ctr).ctr
    unfold flattenFields
    dsimp only
    obtain ⟨a1, a2, a3, a4⟩ := ih1
    obtain ⟨b1, b2, b3, b4⟩ := ih2
    refine ⟨by omega, ?_, ?_, ?_⟩
    · intro r hr
      rcases List.mem_append.1 hr with h | h
      · have := a2 r h; exact ⟨this.1, by omega⟩
      · have := b2 r h; exact ⟨by omega, this.2⟩
    · rw [List.map_append]
      refine List.Nodup.append a3 b3 ?_
      intro x hx1 hx2
      rw [List.mem_map] at hx1 hx2
      obtain ⟨r1, hr1, hid1⟩ := hx1
      obtain ⟨r2, hr2, hid2⟩ := hx2
      have h1 := a2 r1 hr1
      have h2 := b2 r2 hr2
      omega
    · intro r hr
      rcases List.mem_append.1 hr with h | h
      · rcases a4 r h with he | hl
        · rw [he, childTableName_length]
          omega
        · rw [childTableName_length] at hl
          omega
      · exact b4 r h

theorem flattenElems_inv (ct : Name) (parent : Nat) (xs : List JVal)
    (idx : Nat) (ctr : Nat) :
    ctr ≤ (flattenElems ct parent xs idx ctr).ctr ∧
    (∀ r ∈ (flattenElems ct parent xs idx ctr).rows,
      ctr ≤ r.dltId ∧ r.dltId < (flattenElems ct parent xs idx ctr).ctr) ∧
    ((flattenElems ct parent xs idx ctr).rows.map Row.dltId).Nodup ∧
    (∀ r ∈ (flattenElems ct parent xs idx ctr).rows,
      r.table = ct ∨ ct.length + 2 ≤ r.table.length) := by
  match xs with
  | [] =>
    unfold flattenElems
    exact ⟨Nat.le_refl _, by simp, by simp, by simp⟩
  | x :: rest =>
    have ih1 := flattenRow_inv ct (some parent) (some idx) none x ctr
    have ih2 := flattenElems_inv ct parent rest (idx + 1)
      (flattenRow ct (some parent) (some idx) none x ctr).ctr
    unfold flattenElems
    dsimp only
    obtain ⟨a1, a2, a3, a4⟩ := ih1
    obtain ⟨b1, b2, b3, b4⟩ := ih2
    refine ⟨by omega, ?_, ?_, ?_⟩
    · intro r hr
      rcases List.mem_append.1 hr with h | h
      · have := a2 r h; exact ⟨this.1, by omega⟩
      · have := b2 r h; exact ⟨by omega, this.2⟩
    · rw [List.map_append]
      refine List.Nodup.append a3 b3 ?_
      intro y hy1 hy2
      rw [List.mem_map] at hy1 hy2
      obtain ⟨r1, hr1, hid1⟩ := hy1
      obtain ⟨r2, hr2, hid2⟩ := hy2
      have h1 := a2 r1 hr1
      have h2 := b2 r2 hr2
      omega
    · intro r hr
      rcases List.mem_append.1 hr with h | h
      · obtain ⟨cols, rest2, heq, hrest⟩ := a4
        rw [heq] at h
        rcases List.mem_cons.1 h with he | ht
        · rw [he]
          exact Or.inl rfl
        · exact Or.inr (hrest r ht)
      · exact b4 r h

end

end DltSpec

namespace DltSpec

theorem flattenElems_children (ct : Name) (parent : Nat) :
    ∀ (xs : List JVal) (idx ctr : Nat),
      (((flattenElems ct parent xs idx ctr).rows.filter
          fun r => decide (r.table = ct)).map
            fun r => (r.parentId, r.listIdx, r.loadId)) =
        (List.range xs.length).map
          fun j => (some parent, some (idx + j), (none : Option Name)) := by
  intro xs
  induction xs with
  | nil => intro idx ctr; rfl
  | cons x rest ih =>
    intro idx ctr
    unfold flattenElems
    dsimp only
    rw [List.filter_append, List.map_append]
    obtain ⟨_, _, _, cols, rest2, heq, hrest⟩ :=
      flattenRow_inv ct (some parent) (some idx) none x ctr
    have hhead : ((flattenRow ct (some parent) (some idx) none x ctr).rows.filter
        fun r => decide (r.table = ct)) = [⟨ct, ctr, some parent, some idx, none, cols⟩] := by
      rw [heq, List.filter_cons]
      rw [if_pos (by simp)]
      rw [List.filter_eq_nil_iff.2 ?h1]
      case h1 =>
        intro r hr
        have hlen := hrest r hr
        simp only [decide_eq_true_eq]
        intro he
        rw [he] at hlen
        omega
    rw [hhead]
    dsimp only [List.map_cons, List.map_nil]
    rw [List.cons_append, List.nil_append, List.length_cons,
      List.range_succ_eq_map, List.map_cons, List.map_map,
      ih (idx + 1) (flattenRow ct (some parent) (some idx) none x ctr).ctr]
    congr 1
    refine List.map_congr_left ?_
    intro j _
    simp only [Function.comp]
    have harith : idx + 1 + j = idx + (j + 1) := by omega
    rw [harith]

end DltSpec

namespace DltSpec

theorem joinPath_singleton (s : Name) : joinPath [s] = escape s := by
  simp [joinPath, List.intercalate, List.intersperse]

theorem joinPath_cons_cons (x y : Name) (t : List Name) :
    joinPath (x :: y :: t) = escape x ++ pathSep ++ joinPath (y :: t) := by
  simp [joinPath, List.intercalate, List.intersperse]

/-- The path-joined name of a genuinely nested path (two or more
segments) always contains the separator sequence. -/
theorem hasDouble_joinPath (l : List Name) (hl : 2 ≤ l.length) :
    hasDouble (joinPath l) = true := by
  match l with
  | [] => exact absurd hl (by simp)
  | [x] => exact absurd hl (by simp)
  | x :: y :: t =>
    refine hasDouble_of_infix _ ⟨escape x, joinPath (y :: t), ?_⟩
    rw [joinPath_cons_cons]
    rfl

/-- Flattening the fields `pre ++ rest` is flattening `pre`, then `rest`
from the counter `pre` left behind. -/
theorem flattenFields_append (table : Name) (rowId : Nat) (path : List Name) :
    ∀ (pre rest : List (Name × JVal)) (ctr : Nat),
      (flattenFields table rowId path (pre ++ rest) ctr).rows =
        (flattenFields table rowId path pre ctr).rows ++
          (flattenFields table rowId path rest
            (flattenFields table rowId path pre ctr).ctr).rows ∧
      (flattenFields table rowId path (pre ++ rest) ctr).delta =
        (flattenFields table rowId path pre ctr).delta ++
          (flattenFields table rowId path rest
            (flattenFields table rowId path pre ctr).ctr).delta ∧
      (flattenFields table rowId path (pre ++ rest) ctr).ctr =
        (flattenFields table rowId path rest
          (flattenFields table rowId path pre ctr).ctr).ctr := by
  intro pre
  induction pre with
  | nil => intro rest ctr; exact ⟨rfl, rfl, rfl⟩
  | cons p pre' ih =>
    intro rest ctr
    obtain ⟨k, v⟩ := p
    rw [List.cons_append]
    cases v with
    | str x =>
      simp only [flattenFields]
      exact ih rest ctr
    | int x =>
      simp only [flattenFields]
      exact ih rest ctr
    | bool x =>
      simp only [flattenFields]
      exact ih rest ctr
    | obj gs =>
      simp only [flattenFields]
      obtain ⟨h1, h2, h3⟩ :=
        ih rest (flattenFields table rowId (path ++ [k]) gs ctr).ctr
      refine ⟨?_, ?_, ?_⟩
      · rw [h1, List.append_assoc]
      · rw [h2, List.append_assoc]
      · rw [h3]
    | arr ys =>
      simp only [flattenFields]
      obtain ⟨h1, h2, h3⟩ := ih rest
        (flattenElems (childTableName table (path ++ [k])) rowId ys 0 ctr).ctr
      refine ⟨?_, ?_, ?_⟩
      · rw [h1, List.append_assoc]
      · rw [h2, List.cons_append, List.append_assoc]
      · rw [h3]

end DltSpec

namespace DltSpec

mutual

/-- Every row emitted below a row of table `t` lives in `t` itself or in
a table extending `t` with the separator. -/
theorem flattenRow_tables (table : Name) (parentId : Option Nat)
    (listIdx : Option Nat) (loadId : Option Name) (v : JVal) (ctr : Nat) :
    ∀ r ∈ (flattenRow table parentId listIdx loadId v ctr).rows,
      r.table = table ∨ ∃ Y, r.table = table ++ pathSep ++ Y := by
  cases v with
  | obj fs =>
    have ih := flattenFields_tables table ctr [] fs (ctr + 1)
    unfold flattenRow
    dsimp only
    intro r hr
    rcases List.mem_cons.1 hr with he | ht
    · rw [he]
      exact Or.inl rfl
    · obtain ⟨X, hX, _⟩ := ih r ht
      exact Or.inr ⟨X, hX⟩
  | str x =>
    unfold flattenRow
    dsimp only
    intro r hr
    rcases List.mem_singleton.1 hr with he
    rw [he]
    exact Or.inl rfl
  | int x =>
    unfold flattenRow
    dsimp only
    intro r hr
    rcases List.mem_singleton.1 hr with he
    rw [he]
    exact Or.inl rfl
  | bool x =>
    unfold flattenRow
    dsimp only
    intro r hr
    rcases List.mem_singleton.1 hr with he
    rw [he]
    exact Or.inl rfl
  | arr xs =>
    have ih := flattenElems_tables (childTableName table [valueName]) ctr xs 0 (ctr + 1)
    unfold flattenRow
    dsimp only
    intro r hr
    rcases List.mem_cons.1 hr with he | ht
    · rw [he]
      exact Or.inl rfl
    · rcases ih r ht with he2 | ⟨Y, hY⟩
      · refine Or.inr ⟨joinPath [valueName], ?_⟩
        rw [he2, childTableName]
      · refine Or.inr ⟨joinPath [valueName] ++ pathSep ++ Y, ?_⟩
        rw [hY]
        simp only [childTableName, List.append_assoc]

/-- Every row emitted while flattening fields of a row of table `table`
lives in a table `table__X` where either `X` contains the separator
sequence (the row comes from a nested path or a deeper descendant) or
`X` is the joined path of an array field of this very field list. -/
theorem flattenFields_tables (table : Name) (rowId : Nat) (path : List Name)
    (fs : List (Name × JVal)) (ctr : Nat) :
    ∀ r ∈ (flattenFields table rowId path fs ctr).rows,
      ∃ X, r.table = table ++ pathSep ++ X ∧
        (hasDouble X = true ∨
          ∃ k v, (k, JVal.arr v) ∈ fs ∧ X = joinPath (path ++ [k])) := by
  match fs with
  | [] =>
    unfold flattenFields
    intro r hr
    exact absurd hr (by simp)
  | (k, .str x) :: rest =>
    have ih := flattenFields_tables table rowId path rest ctr
    unfold flattenFields
    dsimp only
    intro r hr
    obtain ⟨X, h1, h2⟩ := ih r hr
    refine ⟨X, h1, ?_⟩
    rcases h2 with hd | ⟨k2, v2, hm, hj⟩
    · exact Or.inl hd
    · exact Or.inr ⟨k2, v2, List.mem_cons_of_mem _ hm, hj⟩
  | (k, .int x) :: rest =>
    have ih := flattenFields_tables table rowId path rest ctr
    unfold flattenFields
    dsimp only
    intro r hr
    obtain ⟨X, h1, h2⟩ := ih r hr
    refine ⟨X, h1, ?_⟩
    rcases h2 with hd | ⟨k2, v2, hm, hj⟩
    · exact Or.inl hd
    · exact Or.inr ⟨k2, v2, List.mem_cons_of_mem _ hm, hj⟩
  | (k, .bool x) :: rest =>
    have ih := flattenFields_tables table rowId path rest ctr
    unfold flattenFields
    dsimp only
    intro r hr
    obtain ⟨X, h1, h2⟩ := ih r hr
    refine ⟨X, h1, ?_⟩
    rcases h2 with hd | ⟨k2, v2, hm, hj⟩
    · exact Or.inl hd
    · exact Or.inr ⟨k2, v2, List.mem_cons_of_mem _ hm, hj⟩
  | (k, .obj gs) :: rest =>
    have ih1 := flattenFields_tables table rowId (path ++ [k]) gs ctr
    have ih2 := flattenFields_tables table rowId path rest
      (flattenFields table rowId (path ++ [k]) gs ctr).ctr
    unfold flattenFields
    dsimp only
    intro r hr
    rcases List.mem_append.1 hr with h | h
    · obtain ⟨X, h1, h2⟩ := ih1 r h
      refine ⟨X, h1, Or.inl ?_⟩
      rcases h2 with hd | ⟨k2, v2, _, hj⟩
      · exact hd
      · rw [hj]
        refine hasDouble_joinPath _ ?_
        simp only [List.length_append, List.length_cons, List.length_nil]
        omega
    · obtain ⟨X, h1, h2⟩ := ih2 r h
      refine ⟨X, h1, ?_⟩
      rcases h2 with hd | ⟨k2, v2, hm, hj⟩
      · exact Or.inl hd
      · exact Or.inr ⟨k2, v2, List.mem_cons_of_mem _ hm, hj⟩
  | (k, .arr xs) :: rest =>
    have ih1 := flattenElems_tables (childTableName table (path ++ [k])) rowId xs 0 ctr
    have ih2 := flattenFields_tables table rowId path rest
      (flattenElems (childTableName table (path ++ [k])) rowId xs 0 ctr).ctr
    unfold flattenFields
    dsimp only
    intro r hr
    rcases List.mem_append.1 hr with h | h
    · rcases ih1 r h with he | ⟨Y, hY⟩
      · refine ⟨joinPath (path ++ [k]), ?_,
          Or.inr ⟨k, xs, List.mem_cons_self _ _, rfl⟩⟩
        rw [he, childTableName]
      · refine ⟨joinPath (path ++ [k]) ++ pathSep ++ Y, ?_, Or.inl ?_⟩
        · rw [hY]
          simp only [childTableName, List.append_assoc]
        · exact hasDouble_of_infix _ ⟨joinPath (path ++ [k]), Y, rfl⟩
    · obtain ⟨X, h1, h2⟩ := ih2 r h
      refine ⟨X, h1, ?_⟩
      rcases h2 with hd | ⟨k2, v2, hm, hj⟩
      · exact Or.inl hd
      · exact Or.inr ⟨k2, v2, List.mem_cons_of_mem _ hm, hj⟩

/-- Every row emitted by array expansion lives in the child table or in
a table extending it with the separator. -/
theorem flattenElems_tables (ct : Name) (parent : Nat) (xs : List JVal)
    (idx : Nat) (ctr : Nat) :
    ∀ r ∈ (flattenElems ct parent xs idx ctr).rows,
      r.table = ct ∨ ∃ Y, r.table = ct ++ pathSep ++ Y := by
  match xs with
  | [] =>
    unfold flattenElems
    intro r hr
    exact absurd hr (by simp)
  | x :: rest =>
    have ih1 := flattenRow_tables ct (some parent) (some idx) none x ctr
    have ih2 := flattenElems_tables ct parent rest (idx + 1)
      (flattenRow ct (some parent) (some idx) none x ctr).ctr
    unfold flattenElems
    dsimp only
    intro r hr
    rcases List.mem_append.1 hr with h | h
    · exact ih1 r h
    · exact ih2 r h

end

end DltSpec

namespace DltSpec

/-- A field list whose array-valued fields all have plain names
different from the plain name `f` puts no row into `table__f`. -/
theorem flattenFields_no_collision (table f : Name) (rowId : Nat)
    (fs : List (Name × JVal)) (ctr : Nat)
    (hf : plain f)
    (hfs : ∀ p ∈ fs, isArr p.2 = true → plain p.1 ∧ p.1 ≠ f) :
    ((flattenFields table rowId [] fs ctr).rows.filter
      fun r => decide (r.table = childTableName table [f])) = [] := by
  refine List.filter_eq_nil_iff.2 ?_
  intro r hr
  simp only [decide_eq_true_eq]
  intro he
  obtain ⟨X, hXt, hXd⟩ := flattenFields_tables table rowId [] fs ctr r hr
  have h1 : table ++ pathSep ++ X = table ++ pathSep ++ escape f := by
    rw [← hXt, he, childTableName, joinPath_singleton]
  have hXf : X = escape f := List.append_cancel_left h1
  rcases hXd with hd | ⟨k, v, hm, hj⟩
  · rw [hXf, escape_plain f hf, hf.2.2.2] at hd
    exact absurd hd (by decide)
  · have hk := hfs (k, JVal.arr v) hm rfl
    have hXk : X = k := by
      rw [hj, List.nil_append, joinPath_singleton, escape_plain k hk.1]
    exact hk.2 (by rw [← hXk, hXf, escape_plain f hf])

end DltSpec

namespace DltSpec

/-- C5 (child-table linkage, corrected): for a document whose field `f`
(a plain name) holds an array of `k` elements, flattened under table
`table` with enclosing row id `R` — the other fields being arbitrary
(scalars, nested objects with arbitrarily nested arrays, further array
fields), provided every sibling array-valued field at the top level has
a plain name different from `f` — exactly `k` rows are produced in the
child table named `table__f`; in input order they carry
`_dlt_parent_id = R`, `_dlt_list_idx = 0..k-1` and no `_dlt_load_id`;
their `_dlt_id`s are pairwise distinct and fresh (greater than `R`); the
schema delta records the child table with parent reference `table`; and
only the root row of a flattened document carries the load id.  Without
the plain-name proviso the exact count fails: a sibling whose escaped
nested path collides with `table__f` adds rows to it (see the
counterexample). -/
theorem child_table_linkage (table f loadId : Name) (xs : List JVal)
    (pre post : List (Name × JVal)) (R ctr : Nat)
    (hf : plain f)
    (hsib : ∀ p ∈ pre ++ post, isArr p.2 = true → plain p.1 ∧ p.1 ≠ f)
    (hR : R < ctr) :
    ((flattenFields table R [] (pre ++ (f, JVal.arr xs) :: post) ctr).rows.filter
        fun r => decide (r.table = childTableName table [f])).length = xs.length ∧
    (((flattenFields table R [] (pre ++ (f, JVal.arr xs) :: post) ctr).rows.filter
        fun r => decide (r.table = childTableName table [f])).map
          fun r => (r.parentId, r.listIdx, r.loadId)) =
      (List.range xs.length).map (fun j => (some R, some j, (none : Option Name))) ∧
    (childTableName table [f], some table) ∈
      (flattenFields table R [] (pre ++ (f, JVal.arr xs) :: post) ctr).delta ∧
    ((((flattenFields table R [] (pre ++ (f, JVal.arr xs) :: post) ctr).rows.filter
        fun r => decide (r.table = childTableName table [f])).map Row.dltId).Nodup) ∧
    (∀ r ∈ (flattenFields table R [] (pre ++ (f, JVal.arr xs) :: post) ctr).rows.filter
        fun r => decide (r.table = childTableName table [f]), R < r.dltId) ∧
    (∀ ctr0 : Nat,
      ((flatten table loadId (JVal.obj (pre ++ (f, JVal.arr xs) :: post)) ctr0).rows.head?).map
        Row.loadId = some (some loadId)) := by
  obtain ⟨hrowsA, hdeltaA, _⟩ :=
    flattenFields_append table R [] pre ((f, JVal.arr xs) :: post) ctr
  have hnil : ([] : List Name) ++ [f] = [f] := rfl
  have hcons : (flattenFields table R [] ((f, JVal.arr xs) :: post)
      (flattenFields table R [] pre ctr).ctr).rows =
      (flattenElems (childTableName table [f]) R xs 0
        (flattenFields table R [] pre ctr).ctr).rows ++
      (flattenFields table R [] post
        (flattenElems (childTableName table [f]) R xs 0
          (flattenFields table R [] pre ctr).ctr).ctr).rows := by
    simp only [flattenFields, hnil]
  have hconsd : (flattenFields table R [] ((f, JVal.arr xs) :: post)
      (flattenFields table R [] pre ctr).ctr).delta =
      (childTableName table [f], some table) ::
        ((flattenElems (childTableName table [f]) R xs 0
          (flattenFields table R [] pre ctr).ctr).delta ++
         (flattenFields table R [] post
           (flattenElems (childTableName table [f]) R xs 0
             (flattenFields table R [] pre ctr).ctr).ctr).delta) := by
    simp only [flattenFields, hnil]
  have hfiltA := flattenFields_no_collision table f R pre ctr hf
    fun p hp ha => hsib p (List.mem_append_left post hp) ha
  have hfiltB := flattenFields_no_collision table f R post
    (flattenElems (childTableName table [f]) R xs 0
      (flattenFields table R [] pre ctr).ctr).ctr hf
    fun p hp ha => hsib p (List.mem_append_right pre hp) ha
  have hfilt : ((flattenFields table R []
        (pre ++ (f, JVal.arr xs) :: post) ctr).rows.filter
      fun r => decide (r.table = childTableName table [f])) =
      ((flattenElems (childTableName table [f]) R xs 0
        (flattenFields table R [] pre ctr).ctr).rows.filter
          fun r => decide (r.table = childTableName table [f])) := by
    rw [hrowsA, hcons, List.filter_append, List.filter_append, hfiltA, hfiltB,
      List.nil_append, List.append_nil]
  have hmap := flattenElems_children (childTableName table [f]) R xs 0
    (flattenFields table R [] pre ctr).ctr
  have hmap' : (((flattenElems (childTableName table [f]) R xs 0
      (flattenFields table R [] pre ctr).ctr).rows.filter
      fun r => decide (r.table = childTableName table [f])).map
        fun r => (r.parentId, r.listIdx, r.loadId)) =
      (List.range xs.length).map
        fun j => (some R, some j, (none : Option Name)) := by
    rw [hmap]
    refine List.map_congr_left ?_
    intro j _
    rw [Nat.zero_add]
  obtain ⟨hctrA, _, _, _⟩ := flattenFields_inv table R [] pre ctr
  obtain ⟨_, hbounds, hnodup, _⟩ :=
    flattenElems_inv (childTableName table [f]) R xs 0
      (flattenFields table R [] pre ctr).ctr
  refine ⟨?_, ?_, ?_, ?_, ?_, ?_⟩
  · have hlen := congrArg List.length hmap'
    rw [List.length_map, List.length_map, List.length_range] at hlen
    rw [hfilt]
    exact hlen
  · rw [hfilt]
    exact hmap'
  · rw [hdeltaA, hconsd]
    exact List.mem_append_right _ (List.mem_cons_self _ _)
  · rw [hfilt]
    refine List.Nodup.sublist ?_ hnodup
    exact List.Sublist.map Row.dltId (List.filter_sublist _)
  · rw [hfilt]
    intro r hr
    rw [List.mem_filter] at hr
    have := hbounds r hr.1
    omega
  · intro ctr0
    rfl

end DltSpec

namespace DltSpec

/-- C5 counterexample (unrestricted claim): in the document
`{a__b: [1], a_: {b: [2]}}` under table `doc`, the field `a__b` holds a
one-element array, yet two rows end up in its child table — escaping
sends the nested array `a_`.`b` of the sibling object into the very
same child-table name `doc__a____b`, so the exact-count guarantee needs
the no-collision proviso on sibling names. -/
theorem child_table_linkage_counterexample :
    ([JVal.int 1] : List JVal).length = 1 ∧
    childTableName "doc".toList ["a__b".toList] =
      childTableName "doc".toList ["a_".toList, "b".toList] ∧
    ((flattenFields "doc".toList 0 []
        ([] ++ ("a__b".toList, JVal.arr [JVal.int 1]) ::
          [("a_".toList, JVal.obj [("b".toList, JVal.arr [JVal.int 2])])]) 1).rows.filter
        fun r => decide (r.table =
          childTableName "doc".toList ["a__b".toList])).length = 2 := by
  decide

/-- The sibling fields of the witness document's `labels` array, before
it: a scalar and a nested object that itself holds an array. -/
def exIssuePre : List (Name × JVal) :=
  [("title".toList, JVal.str "t".toList),
   ("user".toList, JVal.obj
     [("login".toList, JVal.str "u".toList),
      ("urls".toList, JVal.arr [JVal.str "x".toList])])]

/-- The sibling fields after it: a second top-level array. -/
def exIssuePost : List (Name × JVal) :=
  [("assignees".toList, JVal.arr [JVal.int 7])]

/-- The witness document's array field value. -/
def exLabels : List JVal :=
  [JVal.str "bug".toList, JVal.str "ui".toList, JVal.str "p1".toList]

/-- C5 witness: the three-element array field `labels` under table
`issues`, amid a scalar sibling, a sibling object carrying its own
nested array and a second top-level array `assignees`, yields exactly
three rows in `issues__labels`, with parent id 0, list indexes 0, 1, 2,
no load id, fresh distinct ids, and a delta entry whose parent is
`issues`. -/
theorem child_table_linkage_witness :
    (plain "labels".toList ∧
      (∀ p ∈ exIssuePre ++ exIssuePost, isArr p.2 = true →
        plain p.1 ∧ p.1 ≠ "labels".toList) ∧ 0 < 1) ∧
    (((flattenFields "issues".toList 0 []
        (exIssuePre ++ ("labels".toList, JVal.arr exLabels) :: exIssuePost) 1).rows.filter
        fun r => decide (r.table =
          childTableName "issues".toList ["labels".toList])).length = exLabels.length ∧
      (((flattenFields "issues".toList 0 []
          (exIssuePre ++ ("labels".toList, JVal.arr exLabels) :: exIssuePost) 1).rows.filter
          fun r => decide (r.table =
            childTableName "issues".toList ["labels".toList])).map
            fun r => (r.parentId, r.listIdx, r.loadId)) =
        (List.range exLabels.length).map
          (fun j => (some 0, some j, (none : Option Name))) ∧
      (childTableName "issues".toList ["labels".toList], some "issues".toList) ∈
        (flattenFields "issues".toList 0 []
          (exIssuePre ++ ("labels".toList, JVal.arr exLabels) :: exIssuePost) 1).delta ∧
      ((((flattenFields "issues".toList 0 []
          (exIssuePre ++ ("labels".toList, JVal.arr exLabels) :: exIssuePost) 1).rows.filter
          fun r => decide (r.table =
            childTableName "issues".toList ["labels".toList])).map
            Row.dltId).Nodup) ∧
      (∀ r ∈ (flattenFields "issues".toList 0 []
          (exIssuePre ++ ("labels".toList, JVal.arr exLabels) :: exIssuePost) 1).rows.filter
          fun r => decide (r.table =
            childTableName "issues".toList ["labels".toList]), 0 < r.dltId) ∧
      (∀ ctr0 : Nat,
        ((flatten "issues".toList "load1".toList
          (JVal.obj (exIssuePre ++
            ("labels".toList, JVal.arr exLabels) :: exIssuePost)) ctr0).rows.head?).map
          Row.loadId = some (some "load1".toList))) ∧
    childTableName "issues".toList ["labels".toList] = "issues__labels".toList :=
  ⟨⟨by decide, by decide, by decide⟩,
    child_table_linkage "issues".toList "labels".toList "load1".toList exLabels
      exIssuePre exIssuePost 0 1
      (by decide) (by decide) (by decide),
    by decide⟩

end DltSpec
